

import Mathlib

/- Verification of the timing/async control-flow core of the `@exah/utils`
   library: `queue`, `concurrentN`, `debouncePromise` (src/promises.js) and
   `debounce`, `throttle` (src/fns.js).

   The JavaScript code is shallowly embedded as executable Lean state
   machines.  Promises are represented by their eventual outcome
   (`Except err val`); the single-threaded event-loop is represented by an
   explicit list of events (calls, timer firings, promise settlements) that
   is folded over the controller state.  Ghost fields (`fnCalls`,
   `invocations`, `maxRunning`, `settleLog`, ...) record the observable
   effect history that the specification talks about. -/

set_option linter.unusedVariables false

/-! ## Generic list helpers (positional access and update) -/

/-- Positional lookup, `l[i]` as an `Option` (JS array indexing). -/
def entAt : List γ → Nat → Option γ
  | [], _ => none
  | x :: _, 0 => some x
  | _ :: rest, k + 1 => entAt rest k

/-! ## `queue` (src/promises.js)

```js
export const queue = (first = noop, ...rest) => (...args) =>
  rest.reduce((a, b) => a.then(b), Promise.resolve(first(...args)))
```

A step function may return a plain value, return a promise (both are merged
by `Promise.resolve` / `.then` adoption into an `Except` outcome), or throw
synchronously. -/

/-- Result of invoking a JS function: it either returns a value/promise whose
settled outcome is `r`, or throws synchronously. -/
inductive JSOut (ε α : Type) where
  | ret (r : Except ε α)
  | thrown (e : ε)

/-- Result of calling `run(...args)` produced by `queue`: either the call
itself throws synchronously (before any promise exists), or it returns a
promise with the given settled outcome. -/
inductive RunRes (ε α : Type) where
  | syncThrow (e : ε)
  | promise (r : Except ε α)

/-- `a.then(b)`: if `a` is rejected, `b` is skipped; otherwise `b` receives
the resolved value; a synchronous throw inside `b` becomes a rejection, a
returned value/promise is adopted. -/
def thenStep (a : Except ε α) (b : α → JSOut ε α) : Except ε α :=
  match a with
  | .error e => .error e
  | .ok v =>
    match b v with
    | .ret r => r
    | .thrown e => .error e

/-- `queue(first, ...rest)(...args)`.  `first(...args)` runs synchronously
outside any promise executor, so a synchronous throw there escapes `run`
itself; otherwise the chain `rest.reduce((a, b) => a.then(b), ...)` is
built. -/
def queueRun (first : List α → JSOut ε α) (rest : List (α → JSOut ε α))
    (args : List α) : RunRes ε α :=
  match first args with
  | .thrown e => .syncThrow e
  | .ret seed => .promise (rest.foldl thenStep seed)

/-! ## `debounce` / `throttle` (src/fns.js)

```js
export const debounce = (fn, timeout = 0, isImmediate) => {
  let timerId = null
  const cancel = () => {
    if (timerId !== null) { clearTimeout(timerId); timerId = null }
  }
  function debounced (...args) {
    let result
    const run = fn.bind(this, ...args)
    if (isImmediate && timerId === null) { result = run() }
    cancel()
    timerId = setTimeout(() => { if (!isImmediate) run(); timerId = null }, timeout)
    return result
  }
  return Object.assign(debounced, { cancel })
}
```

The single timer slot is `timer : Option (List α)`: `some args` is a pending
timer whose callback closes over `args`.  `fnCalls` is the ghost history of
invocations of `fn`, `schedules`/`cancels` count `setTimeout` calls and
effective `clearTimeout` calls. -/

/-- Events delivered by the event loop to a debounce/throttle wrapper:
a call of the wrapped function, or the pending timer firing. -/
inductive Ev (α : Type) where
  | call (args : List α)
  | fire

/-- State of one `debounce` controller instance. -/
structure DbState (α : Type) where
  timer : Option (List α)
  fnCalls : List (List α)
  schedules : Nat
  cancels : Nat

/-- Fresh `debounce` state (`timerId = null`). -/
def dbInit : DbState α := ⟨none, [], 0, 0⟩

/-- Internal `cancel()`: clears the pending timer if there is one. -/
def dbCancel (σ : DbState α) : DbState α :=
  match σ.timer with
  | none => σ
  | some _ => { σ with timer := none, cancels := σ.cancels + 1 }

/-- One call `debounced(...args)`.  Returns the new state and the value the
call returns to its caller (`some` = the leading-edge result, `none` =
`undefined`). -/
def dbCall (im : Bool) (fn : List α → β) (σ : DbState α) (args : List α) :
    DbState α × Option β :=
  let leading := im && σ.timer.isNone
  let σ1 := if leading then { σ with fnCalls := σ.fnCalls ++ [args] } else σ
  let σ2 := dbCancel σ1
  ({ σ2 with timer := some args, schedules := σ2.schedules + 1 },
    if leading then some (fn args) else none)

/-- The pending timer fires: trailing mode runs `fn` with the scheduling
call's arguments, then the slot is freed. -/
def dbFire (im : Bool) (σ : DbState α) : DbState α :=
  match σ.timer with
  | none => σ
  | some args =>
    if im then { σ with timer := none }
    else { σ with timer := none, fnCalls := σ.fnCalls ++ [args] }

/-- One event-loop step of a `debounce` instance. -/
def dbStep (im : Bool) (fn : List α → β) (σ : DbState α) : Ev α → DbState α
  | .call args => (dbCall im fn σ args).1
  | .fire => dbFire im σ

/-- Run a `debounce` instance over an event trace from a fresh state. -/
def dbExec (im : Bool) (fn : List α → β) (evs : List (Ev α)) : DbState α :=
  evs.foldl (dbStep im fn) dbInit

/-- State of one `throttle` controller instance. -/
structure ThState (α : Type) where
  timer : Option (List α)
  fnCalls : List (List α)

/-- Fresh `throttle` state. -/
def thInit : ThState α := ⟨none, []⟩

/-- One call `throttled(...args)`: dropped entirely while a timer is pending
(`if (timerId !== null) return`); otherwise runs `fn` on the leading edge if
immediate and starts the window. -/
def thCall (im : Bool) (σ : ThState α) (args : List α) : ThState α :=
  match σ.timer with
  | some _ => σ
  | none =>
    let σ1 := if im then { σ with fnCalls := σ.fnCalls ++ [args] } else σ
    { σ1 with timer := some args }

/-- The throttle window closes: trailing mode runs `fn` with the arguments of
the call that opened the window. -/
def thFire (im : Bool) (σ : ThState α) : ThState α :=
  match σ.timer with
  | none => σ
  | some args =>
    if im then { σ with timer := none }
    else { σ with timer := none, fnCalls := σ.fnCalls ++ [args] }

/-- One event-loop step of a `throttle` instance. -/
def thStep (im : Bool) (σ : ThState α) : Ev α → ThState α
  | .call args => thCall im σ args
  | .fire => thFire im σ

/-- Run a `throttle` instance over an event trace from a fresh state. -/
def thExec (im : Bool) (evs : List (Ev α)) : ThState α :=
  evs.foldl (thStep im) thInit

/-! ### Helper lemmas for `debounce` / `throttle` -/

/-- C9 counterexample input: a `first` function that throws synchronously. -/
def c9First : List Nat → JSOut Nat Nat := fun _ => .thrown 7

/-- Result of invoking the wrapped async function `fn`: either a
value/promise whose settled outcome is `out` (a returned rejected promise is
`val (.error e)`), or a synchronous throw. -/
inductive FnRes (ε β : Type) where
  | val (out : Except ε β)
  | thrown (e : ε)

/-- State of one caller's promise. -/
inductive WaiterSt (ε β : Type) where
  | pending
  | settled (r : Except ε β)
  | settledNoValue

/-- State of one `debouncePromise` controller instance. -/
structure DpState (α ε β : Type) where
  timerVar : Bool
  live : Option (List α)
  resolveList : List Nat
  result : Option (Except ε β)
  waiters : List (WaiterSt ε β)
  fnCalls : List (List α)
  settleLog : List Nat
  uncaught : Option ε

/-- Fresh `debouncePromise` state. -/
def dpInit : DpState α ε β := ⟨false, none, [], none, [], [], [], none⟩

/-- Overwrite the waiter at position `w`. -/
def setWaiter : List (WaiterSt ε β) → Nat → WaiterSt ε β → List (WaiterSt ε β)
  | [], _, _ => []
  | _ :: rest, 0, w => w :: rest
  | x :: rest, k + 1, w => x :: setWaiter rest k w

/-- `subResolve(result)`: resolving a waiter with the current value of the
`result` variable (which is `undefined` if never assigned). -/
def resOutcome : Option (Except ε β) → WaiterSt ε β
  | some r => .settled r
  | none => .settledNoValue

/-- Internal `cancel()` of `debouncePromise`. -/
def dpCancel (σ : DpState α ε β) : DpState α ε β :=
  if σ.timerVar then { σ with timerVar := false, live := none } else σ

/-- The timer callback's flush: every queued resolver receives the shared
`result`, in enqueue order, then the list is cleared and the timer slot
freed (`resolveList.forEach(...); resolveList = []; timerId = null`). -/
def dpSettleAll (σ : DpState α ε β) : DpState α ε β :=
  { σ with
    waiters := σ.resolveList.foldl
      (fun ws w => setWaiter ws w (resOutcome σ.result)) σ.waiters,
    settleLog := σ.settleLog ++ σ.resolveList,
    resolveList := [],
    timerVar := false }

/-- One call `debounced(...args)`.  Immediate mode with no pending timer runs
`fn` synchronously inside the executor and resolves this caller's promise
with its result (a synchronous throw there rejects this caller's promise and
aborts the executor before the timer is scheduled); every other call
enqueues its resolver.  Then the pending timer is cancelled and a fresh one
scheduled with this call's `run` closure. -/
def dpCall (im : Bool) (fn : List α → FnRes ε β) (σ : DpState α ε β)
    (args : List α) : DpState α ε β :=
  let w := σ.waiters.length
  if im && !σ.timerVar then
    match fn args with
    | .thrown e =>
      { σ with waiters := σ.waiters ++ [.settled (.error e)],
               fnCalls := σ.fnCalls ++ [args] }
    | .val out =>
      let σ1 := { σ with result := some out,
                         waiters := σ.waiters ++ [.settled out],
                         fnCalls := σ.fnCalls ++ [args] }
      let σ2 := dpCancel σ1
      { σ2 with timerVar := true, live := some args }
  else
    let σ1 := { σ with waiters := σ.waiters ++ [.pending],
                       resolveList := σ.resolveList ++ [w] }
    let σ2 := dpCancel σ1
    { σ2 with timerVar := true, live := some args }

/-- The scheduled timer fires.  In non-immediate mode `fn` runs here with the
scheduling call's arguments; a synchronous throw crashes the callback: the
waiters are left pending, the list is not cleared, `timerId` is not nulled,
and the error is uncaught.  Otherwise the queued waiters are flushed with
the shared `result`. -/
def dpFire (im : Bool) (fn : List α → FnRes ε β) (σ : DpState α ε β) :
    DpState α ε β :=
  match σ.live with
  | none => σ
  | some args =>
    let σ0 := { σ with live := none }
    if im then dpSettleAll σ0
    else
      match fn args with
      | .thrown e =>
        { σ0 with uncaught := some e, fnCalls := σ0.fnCalls ++ [args] }
      | .val out =>
        dpSettleAll { σ0 with result := some out,
                              fnCalls := σ0.fnCalls ++ [args] }

/-- One event-loop step of a `debouncePromise` instance. -/
def dpStep (im : Bool) (fn : List α → FnRes ε β) (σ : DpState α ε β) :
    Ev α → DpState α ε β
  | .call args => dpCall im fn σ args
  | .fire => dpFire im fn σ

/-- Run a `debouncePromise` instance over an event trace from a fresh
state. -/
def dpExec (im : Bool) (fn : List α → FnRes ε β) (evs : List (Ev α)) :
    DpState α ε β :=
  evs.foldl (dpStep im fn) dpInit

/-! ### Helper lemmas for `debouncePromise` -/

/-- C3 counterexample input: an `fn` that throws synchronously. -/
def c3fn : List Nat → FnRes Nat Nat := fun _ => .thrown 7

/-- What invoking one task with the (fixed) argument tuple does. -/
inductive TaskSpec (ε β : Type) where
  | throws (e : ε)
  | promise (out : Except ε β)

/-- One started promise: its predetermined settled outcome, whether the
runner's `.then/.catch` handlers were attached, and whether it has settled
yet. -/
structure CEntry (ε β : Type) where
  plan : Except ε β
  attached : Bool
  settled : Bool

/-- Settlement state of the outer promise returned by `run`: `reject(e)` was
called first, or `resolve(Promise.all(promises))` was called first (the
outer promise then adopts the `Promise.all`). -/
inductive COuter (ε : Type) where
  | rejected (e : ε)
  | adopted

/-- State of one run of `concurrentN`.  `maxRunning` is the ghost maximum of
`running` over every increment, `invocations` the ghost list of task indices
in invocation order, `firstRej` the error of the first rejected settlement
(what the adopted `Promise.all` rejects with), `firstFail` the error of the
first failure event of any kind. -/
structure CState (ε β : Type) where
  promises : List (CEntry ε β)
  lastIndex : Nat
  running : Nat
  outer : Option (COuter ε)
  firstRej : Option ε
  firstFail : Option ε
  maxRunning : Nat
  invocations : List Nat

/-- Keep the first recorded error (`Promise.all` / single-settlement
semantics: later errors are ignored). -/
def orFirst : Option ε → ε → Option ε
  | none, e => some e
  | some e0, _ => some e0

/-- `reject(e)`: settles the outer promise unless it is already settled. -/
def rejectIfNone : Option (COuter ε) → ε → Option (COuter ε)
  | none, e => some (.rejected e)
  | some o, _ => some o

/-- `resolve(Promise.all(promises))`: adopts unless already settled. -/
def adoptIfNone : Option (COuter ε) → Option (COuter ε)
  | none => some .adopted
  | some o => some o

/-- `fns[i](...args)`: invoking a missing task (out of range) throws a
`TypeError`, represented by a default error; the runner never actually
reaches this case. -/
def taskAt [Inhabited ε] (plans : List (TaskSpec ε β)) (i : Nat) :
    TaskSpec ε β :=
  (entAt plans i).getD (.throws default)

/-- Attach the `.then/.catch` handlers of the entry at position `pos`. -/
def setAttachedAt : List (CEntry ε β) → Nat → List (CEntry ε β)
  | [], _ => []
  | ent :: rest, 0 => { ent with attached := true } :: rest
  | ent :: rest, k + 1 => ent :: setAttachedAt rest k

/-- Mark the entry at position `pos` as settled. -/
def setSettledAt : List (CEntry ε β) → Nat → List (CEntry ε β)
  | [], _ => []
  | ent :: rest, 0 => { ent with settled := true } :: rest
  | ent :: rest, k + 1 => ent :: setSettledAt rest k

/-- `true` for a fulfilled plan. -/
def planIsOk : Except ε β → Bool
  | .ok _ => true
  | .error _ => false

/-- Number of entries whose `.then` callback has run (attached, settled and
fulfilled) — exactly the number of `running--` decrements performed. -/
def doneCount : List (CEntry ε β) → Nat
  | [] => 0
  | ent :: rest =>
    (if ent.attached && ent.settled && planIsOk ent.plan then 1 else 0) +
      doneCount rest

/-- The synchronous recursion `run(i)`/`next()`, fuel-indexed (the fuel is
never exhausted when it starts at `plans.length + 1 - promises.length`,
since every recursive call pushes one entry).  Returns the state together
with `some e` when the burst was unwound by a synchronous throw — in that
case none of the tasks started by this burst has its handlers attached. -/
def runLoop [Inhabited ε] (c : Nat) (plans : List (TaskSpec ε β)) :
    Nat → Nat → CState ε β → CState ε β × Option ε
  | 0, _, σ => (σ, none)
  | fuel + 1, i, σ =>
    if σ.promises.length = plans.length then
      ({ σ with outer := adoptIfNone σ.outer }, none)
    else
      match taskAt plans i with
      | .throws e =>
        ({ σ with invocations := σ.invocations ++ [i],
                  firstFail := orFirst σ.firstFail e }, some e)
      | .promise out =>
        let pos := σ.promises.length
        let σ1 : CState ε β :=
          { σ with
            invocations := σ.invocations ++ [i],
            promises := σ.promises ++ [⟨out, false, false⟩],
            lastIndex := i,
            running := σ.running + 1,
            maxRunning := max σ.maxRunning (σ.running + 1) }
        let r := if σ1.running < c then runLoop c plans fuel (i + 1) σ1
                 else (σ1, none)
        match r with
        | (σ2, some e) => (σ2, some e)
        | (σ2, none) =>
          ({ σ2 with promises := setAttachedAt σ2.promises pos }, none)

/-- Catch the synchronous throw of a burst: by the `Promise` executor for the
initial burst, by `.catch(reject)` of the settling promise for a burst run
inside its `.then` callback. -/
def burstOut : CState ε β × Option ε → CState ε β
  | (σ, none) => σ
  | (σ, some e) => { σ with outer := rejectIfNone σ.outer e }

/-- The executor body: `run(lastIndex)` with `lastIndex = 0` on the fresh
state. -/
def initRun [Inhabited ε] (c : Nat) (plans : List (TaskSpec ε β)) :
    CState ε β :=
  burstOut (runLoop c plans (plans.length + 1) 0
    ⟨[], 0, 0, none, none, none, 0, []⟩)

/-- Settlement of the `k`-th started promise (`k` in start order).
Fulfilled with handlers attached: `running--; next()` (the whole `next`
burst runs inside the `.then` callback, so a synchronous throw in it is
caught by this promise's `.catch(reject)`).  Rejected with handlers
attached: `.catch(reject)`.  Without handlers nothing runs, the settlement
is only recorded.  A `k` that is out of range or already settled is a
no-op event. -/
def settleStep [Inhabited ε] (c : Nat) (plans : List (TaskSpec ε β))
    (σ : CState ε β) (k : Nat) : CState ε β :=
  match entAt σ.promises k with
  | none => σ
  | some ent =>
    if ent.settled then σ
    else
      let σ0 := { σ with promises := setSettledAt σ.promises k }
      match ent.plan with
      | .error e =>
        let σ1 := { σ0 with firstRej := orFirst σ0.firstRej e,
                            firstFail := orFirst σ0.firstFail e }
        if ent.attached then { σ1 with outer := rejectIfNone σ1.outer e }
        else σ1
      | .ok v =>
        if ent.attached then
          let σ1 := { σ0 with running := σ0.running - 1 }
          if σ1.running < c then
            burstOut (runLoop c plans (plans.length + 1) (σ1.lastIndex + 1) σ1)
          else σ1
        else σ0

/-- A whole run: the synchronous start burst followed by an arbitrary
schedule of settlement events. -/
def concurrentExec [Inhabited ε] (c : Nat) (plans : List (TaskSpec ε β))
    (sched : List Nat) : CState ε β :=
  sched.foldl (settleStep c plans) (initRun c plans)

/-- Every started promise has settled. -/
def allSettledB (σ : CState ε β) : Bool :=
  σ.promises.all (fun ent => ent.settled)

/-- Value of a fulfilled plan (the rejected case is never reached where this
is used). -/
def planVal [Inhabited β] : Except ε β → β
  | .ok v => v
  | .error _ => default

/-- The settled outcome of the outer promise returned by `run(...args)`:
`none` while it is still pending.  If `reject` won, that error; if `resolve`
won, the outer promise adopted `Promise.all(promises)`, which rejects with
the first rejected settlement or fulfils with the ordered array of results
once all have settled. -/
def finalResult [Inhabited β] (σ : CState ε β) : Option (Except ε (List β)) :=
  match σ.outer with
  | none => none
  | some (.rejected e) => some (.error e)
  | some .adopted =>
    match σ.firstRej with
    | some e => some (.error e)
    | none =>
      if allSettledB σ then
        some (.ok (σ.promises.map (fun ent => planVal ent.plan)))
      else none

/-- `concurrentN(limit)(...tasks)`: a task is a function of the argument
tuple. -/
def plansOf (fns : List (List α → TaskSpec ε β)) (args : List α) :
    List (TaskSpec ε β) :=
  fns.map (fun f => f args)

/-- A run of `concurrentN(c)(...fns)(...args)` under a settlement schedule:
every task is invoked with the identical argument tuple `args`. -/
def concurrentRun [Inhabited ε] (c : Nat) (fns : List (List α → TaskSpec ε β))
    (args : List α) (sched : List Nat) : CState ε β :=
  concurrentExec c (plansOf fns args) sched

/-- The fulfilled value a task produces at `args` (used to state the
ordered-results property). -/
def okValOf [Inhabited β] : TaskSpec ε β → β
  | .promise (.ok v) => v
  | _ => default

/-- No task of the list throws synchronously when invoked. -/
def noThrowPlans (plans : List (TaskSpec ε β)) : Prop :=
  ∀ t ∈ plans, ∃ o, t = TaskSpec.promise o

/-- Invariants of the runner state that hold at every point, including in
the middle of a synchronous `run`/`next` burst. -/
structure CPre [Inhabited ε] (c : Nat) (plans : List (TaskSpec ε β))
    (σ : CState ε β) : Prop where
  lenLe : σ.promises.length ≤ plans.length
  entPlan : ∀ j ent, entAt σ.promises j = some ent →
    taskAt plans j = .promise ent.plan
  lastIdx : σ.lastIndex + 1 = σ.promises.length ∨
    (σ.promises.length = 0 ∧ σ.lastIndex = 0)
  runEq : σ.running + doneCount σ.promises = σ.promises.length
  runLe : σ.running ≤ σ.maxRunning
  maxLe : σ.maxRunning ≤ c
  noneFail : σ.outer = none → σ.firstFail = none
  rejFail : ∀ e, σ.outer = some (.rejected e) → σ.firstFail = some e
  adoptedAll : σ.outer = some .adopted → σ.promises.length = plans.length
  failProv : ∀ e, σ.firstFail = some e → ∃ k, k < plans.length ∧
    (taskAt plans k = .throws e ∨ taskAt plans k = .promise (.error e))
  rejProv : ∀ e, σ.firstRej = some e → ∃ j ent, entAt σ.promises j = some ent ∧
    ent.plan = .error e
  rejNone : σ.firstRej = none → ∀ j ent, entAt σ.promises j = some ent →
    ent.settled = true → planIsOk ent.plan = true
  invLe : ∀ x ∈ σ.invocations, x ≤ σ.promises.length
  invSorted : σ.invocations.Pairwise (· ≤ ·)
  invRange : noThrowPlans plans → σ.invocations = List.range σ.promises.length
  failNone : σ.firstFail = none → σ.firstRej = none

/-- Invariants at event boundaries (between completed bursts): additionally
every started promise has its handlers attached while the outer promise is
unsettled, and an unsettled outer promise always has an in-flight task. -/
structure CInv [Inhabited ε] (c : Nat) (plans : List (TaskSpec ε β))
    (σ : CState ε β) extends CPre c plans σ : Prop where
  noneAtt : σ.outer = none → ∀ j ent, entAt σ.promises j = some ent →
    ent.attached = true
  live : σ.outer = none → 1 ≤ σ.running

/-- What one `run` burst guarantees, relative to its entry state `σ0`. -/
structure RLPost [Inhabited ε] (c : Nat) (plans : List (TaskSpec ε β))
    (σ0 σ' : CState ε β) : Prop where
  pre : CPre c plans σ'
  firstRejEq : σ'.firstRej = σ0.firstRej
  lowPreserve : ∀ j, j < σ0.promises.length →
    entAt σ'.promises j = entAt σ0.promises j
  lenMono : σ0.promises.length ≤ σ'.promises.length
  highNew : ∀ j ent, σ0.promises.length ≤ j → entAt σ'.promises j = some ent →
    ent.settled = false ∧ (σ'.outer = none → ent.attached = true)
  outerMono : σ'.outer = none → σ0.outer = none
  liveEnd : σ'.outer = none → σ'.running = c

/-! ### List lemmas for `entAt`, `setAttachedAt`, `setSettledAt`,
`doneCount` -/

/-- The state pushed by a successful task start (`promises.push`,
`lastIndex = currentIndex`, `running++`). -/
def pushState (σ : CState ε β) (i : Nat) (out : Except ε β) : CState ε β :=
  { σ with
    invocations := σ.invocations ++ [i],
    promises := σ.promises ++ [⟨out, false, false⟩],
    lastIndex := i,
    running := σ.running + 1,
    maxRunning := max σ.maxRunning (σ.running + 1) }

/-- Three fulfilling tasks for the runner witnesses. -/
def wOkFns : List (List Nat → TaskSpec Nat Nat) :=
  [fun _ => .promise (.ok 1), fun _ => .promise (.ok 2),
   fun _ => .promise (.ok 3)]

/-- Tasks where exactly the second one rejects. -/
def wErrFns : List (List Nat → TaskSpec Nat Nat) :=
  [fun _ => .promise (.ok 10), fun _ => .promise (.error 7),
   fun _ => .promise (.ok 20)]

/-- Tasks where the third one throws synchronously when invoked. -/
def wThrowFns : List (List Nat → TaskSpec Nat Nat) :=
  [fun _ => .promise (.ok 1), fun _ => .promise (.ok 2),
   fun _ => .throws 9]

/-! ## Theorems -/

theorem dbExec_append (im : Bool) (fn : List α → β) (l₁ l₂ : List (Ev α)) :
    dbExec im fn (l₁ ++ l₂) = l₂.foldl (dbStep im fn) (dbExec im fn l₁) := by
  simp [dbExec, List.foldl_append]

theorem thExec_append (im : Bool) (l₁ l₂ : List (Ev α)) :
    thExec im (l₁ ++ l₂) = l₂.foldl (thStep im) (thExec im l₁) := by
  simp [thExec, List.foldl_append]

/-- Non-immediate call on a state with a pending timer: cancel + reschedule
with the new arguments. -/
theorem dbCall_pending (fn : List α → β) (σ : DbState α) (x args : List α)
    (h : σ.timer = some x) :
    (dbCall false fn σ args).1 =
      { σ with timer := some args, schedules := σ.schedules + 1,
               cancels := σ.cancels + 1 } := by
  simp [dbCall, dbCancel, h]

/-- A run of non-immediate calls starting from a state with a pending timer:
each call cancels the previous timer and schedules a fresh one carrying its
own arguments. -/
theorem dbCalls_run (fn : List α → β) (as : List (List α)) :
    ∀ (σ : DbState α) (x : List α), σ.timer = some x →
      (as.map Ev.call).foldl (dbStep false fn) σ =
        { σ with timer := some (as.getLastD x),
                 schedules := σ.schedules + as.length,
                 cancels := σ.cancels + as.length } := by
  induction as with
  | nil =>
    intro σ x h
    show σ = { σ with timer := some x, schedules := σ.schedules + 0,
                      cancels := σ.cancels + 0 }
    rw [← h]
    rfl
  | cons a as ih =>
    intro σ x h
    have hstep : dbStep false fn σ (Ev.call a) =
        { σ with timer := some a, schedules := σ.schedules + 1,
                 cancels := σ.cancels + 1 } := by
      simp [dbStep, dbCall_pending fn σ x a h]
    simp only [List.map_cons, List.foldl_cons, hstep]
    rw [ih _ a rfl]
    simp only [List.getLastD_cons, List.length_cons, DbState.mk.injEq,
      true_and, and_true]
    omega

/-- Calls while a throttle timer is pending are the identity on the state. -/
theorem thCall_pending (im : Bool) (σ : ThState α) (x args : List α)
    (h : σ.timer = some x) : thCall im σ args = σ := by
  simp [thCall, h]

theorem thCalls_pending (im : Bool) (as : List (List α)) (σ : ThState α)
    (x : List α) (h : σ.timer = some x) :
    (as.map Ev.call).foldl (thStep im) σ = σ := by
  induction as with
  | nil => simp
  | cons a as ih => simp [thStep, thCall_pending im σ x a h, ih]

/-! ## Claims C6, C7, C8 -/

/-- C6: for every sequence of `N ≥ 1` calls to a non-immediate debounced
wrapper with no intervening timer expiry, followed by the final expiry, the
wrapped function is invoked exactly once, with the arguments of the last
call; and each call cancels any pending timer (`as.length` effective
cancellations for `as.length` rescheduling calls after the first) and
schedules a fresh one carrying its own arguments. -/
theorem debounce_trailing_once (α β : Type) (fn : List α → β)
    (a : List α) (as : List (List α)) :
    (dbExec false fn (((a :: as).map Ev.call) ++ [Ev.fire])).fnCalls
        = [as.getLastD a] ∧
    (dbExec false fn ((a :: as).map Ev.call)).timer = some (as.getLastD a) ∧
    (dbExec false fn ((a :: as).map Ev.call)).fnCalls = [] ∧
    (dbExec false fn ((a :: as).map Ev.call)).schedules = as.length + 1 ∧
    (dbExec false fn ((a :: as).map Ev.call)).cancels = as.length := by
  have hfirst : dbStep false fn (dbInit : DbState α) (Ev.call a) =
      { timer := some a, fnCalls := [], schedules := 1, cancels := 0 } := by
    simp [dbStep, dbCall, dbCancel, dbInit]
  have hcalls : dbExec false fn ((a :: as).map Ev.call) =
      { timer := some (as.getLastD a), fnCalls := [],
        schedules := as.length + 1, cancels := as.length } := by
    show List.foldl (dbStep false fn) dbInit (Ev.call a :: as.map Ev.call) = _
    rw [List.foldl_cons, hfirst, dbCalls_run fn as _ a rfl]
    simp only [DbState.mk.injEq, true_and, and_true]
    omega
  refine ⟨?_, by rw [hcalls], by rw [hcalls], by rw [hcalls], by rw [hcalls]⟩
  rw [dbExec_append, hcalls]
  simp [dbStep, dbFire]

/-- C7: a throttled call made while a timer is pending is dropped entirely
(the state, including the stored window arguments and invocation history, is
unchanged); and a window of `k ≥ 1` calls closed by the timer produces
exactly one underlying invocation, carrying the arguments of the *first*
call of the window (in both modes; in non-immediate mode the invocation
happens at window close). -/
theorem throttle_drops_and_first_args (α : Type) (im : Bool)
    (a : List α) (as : List (List α)) :
    (∀ (σ : ThState α) (x args : List α),
        thCall im { σ with timer := some x } args = { σ with timer := some x }) ∧
    thExec im (((a :: as).map Ev.call) ++ [Ev.fire]) =
      { timer := none, fnCalls := [a] } := by
  constructor
  · intro σ x args
    exact thCall_pending im _ x args rfl
  · have hfirst : thStep im (thInit : ThState α) (Ev.call a) =
        { timer := some a, fnCalls := if im then [a] else [] } := by
      cases im <;> simp [thStep, thCall, thInit]
    have hcalls : thExec im ((a :: as).map Ev.call) =
        { timer := some a, fnCalls := if im then [a] else [] } := by
      simp only [thExec, List.map_cons, List.foldl_cons, hfirst]
      exact thCalls_pending im as _ a rfl
    rw [thExec_append, hcalls]
    cases im <;> simp [thStep, thFire]

/-- C8: the value returned by one call of a debounced wrapper is the result
of the leading-edge invocation of `fn` when `immediate` is set and no timer
is pending, and `undefined` (`none`) in every other case — in particular
always in trailing mode. -/
theorem debounce_return_value (α β : Type) (im : Bool) (fn : List α → β)
    (σ : DbState α) (args : List α) :
    (dbCall im fn σ args).2 =
      (if im && σ.timer.isNone then some (fn args) else none) ∧
    (dbCall false fn σ args).2 = none := by
  constructor
  · rfl
  · simp [dbCall]

/-! ## Claim C9 -/

/-- C9 counterexample: when `first` throws synchronously, `run` does not
return a rejecting promise at all — the exception escapes `run`
synchronously, because `first(...args)` is evaluated before
`Promise.resolve` wraps it.  So the claim "the returned asynchronous result
… rejects with the first error raised at any step — including a synchronous
throw by first" is false at this input. -/
theorem queue_sync_throw_cex :
    queueRun c9First [] [0] = RunRes.syncThrow 7 ∧
    queueRun c9First [] [0] ≠ RunRes.promise (Except.error 7) := by
  constructor
  · rfl
  · intro h
    simp [queueRun, c9First] at h

/-- C9 (amended): each function of `rest` is applied in sequence to the
previous step's resolved value; the returned promise settles with the final
step's outcome and rejects with the first error raised at any step, with no
later step influencing the outcome after a rejection; a synchronous throw by
a `rest` step surfaces as a rejection, but a synchronous throw by `first`
escapes `run` synchronously instead of becoming a rejection. -/
theorem queue_chain_spec (ε α : Type) :
    (∀ (first : List α → JSOut ε α) (rest : List (α → JSOut ε α))
        (args : List α) (e : ε),
        first args = .thrown e → queueRun first rest args = .syncThrow e) ∧
    (∀ (first : List α → JSOut ε α) (rest : List (α → JSOut ε α))
        (args : List α) (r : Except ε α),
        first args = .ret r →
          queueRun first rest args = .promise (rest.foldl thenStep r)) ∧
    (∀ (rest : List (α → JSOut ε α)) (e : ε),
        rest.foldl thenStep (Except.error e) = Except.error e) ∧
    (∀ (b : α → JSOut ε α) (rest : List (α → JSOut ε α)) (v : α) (e : ε),
        b v = .thrown e →
          (b :: rest).foldl thenStep (Except.ok v) =
            rest.foldl thenStep (Except.error e)) := by
  refine ⟨?_, ?_, ?_, ?_⟩
  · intro first rest args e h
    simp [queueRun, h]
  · intro first rest args r h
    simp [queueRun, h]
  · intro rest e
    induction rest with
    | nil => rfl
    | cons b rest ih => simpa [thenStep] using ih
  · intro b rest v e h
    simp [List.foldl_cons, thenStep, h]

/-- Witness for the amended C9 theorem at concrete inputs. -/
theorem queue_chain_spec_witness :
    queueRun c9First [] [0] = RunRes.syncThrow 7 ∧
    ([fun v => JSOut.ret (Except.ok (v + 1))].foldl thenStep
        (Except.error 3 : Except Nat Nat)) = Except.error 3 :=
  ⟨(queue_chain_spec Nat Nat).1 c9First [] [0] 7 rfl,
   (queue_chain_spec Nat Nat).2.2.1 [fun v => JSOut.ret (Except.ok (v + 1))] 3⟩

/-! ## `debouncePromise` (src/promises.js)

```js
export const debouncePromise = (fn, time = 0, isImmediate) => {
  let timerId = null
  let resolveList = []
  let result
  const cancel = () => {
    if (timerId !== null) { clearTimeout(timerId); timerId = null }
  }
  return function debounced (...args) {
    const run = fn.bind(this, ...args)
    return new Promise((resolve) => {
      if (isImmediate === true && timerId === null) {
        result = run()
        resolve(result)
      } else {
        resolveList.push(resolve)
      }
      cancel()
      timerId = setTimeout(() => {
        if (!isImmediate) { result = run() }
        resolveList.forEach((subResolve) => subResolve(result))
        resolveList = []
        timerId = null
      }, time)
    })
  }
}
```

`timerVar` mirrors the variable `timerId !== null`; `live` is the actually
scheduled, not-yet-fired timer together with the argument list its callback
(`run`) closed over.  The two differ exactly when the timer callback crashed
before reaching `timerId = null` (see `dpFire`).  Each call allocates a
waiter (the caller's promise), identified by its position in `waiters`. -/

theorem dpExec_append (im : Bool) (fn : List α → FnRes ε β)
    (l₁ l₂ : List (Ev α)) :
    dpExec im fn (l₁ ++ l₂) = l₂.foldl (dpStep im fn) (dpExec im fn l₁) := by
  simp [dpExec, List.foldl_append]

/-- A non-immediate run of calls: each enqueues one waiter and reschedules
the timer with its own arguments. -/
theorem dpCalls_run_nonim (fn : List α → FnRes ε β) (as : List (List α)) :
    ∀ (k : Nat) (x : List α),
      (as.map Ev.call).foldl (dpStep false fn)
          ⟨true, some x, List.range k, none, List.replicate k .pending, [], [], none⟩ =
        ⟨true, some (as.getLastD x), List.range (k + as.length),
          none, List.replicate (k + as.length) .pending, [], [], none⟩ := by
  induction as with
  | nil => intro k x; simp
  | cons a as ih =>
    intro k x
    have hstep : dpStep false fn
        (⟨true, some x, List.range k, none, List.replicate k .pending, [], [], none⟩ :
          DpState α ε β) (Ev.call a) =
        ⟨true, some a, List.range (k + 1), none,
          List.replicate (k + 1) .pending, [], [], none⟩ := by
      simp [dpStep, dpCall, dpCancel, List.range_succ, List.replicate_succ']
    simp only [List.map_cons, List.foldl_cons, hstep]
    rw [ih (k + 1) a]
    have h1 : k + 1 + as.length = k + (a :: as).length := by
      simp only [List.length_cons]
      omega
    rw [h1, List.getLastD_cons]

/-- An immediate-mode run of calls inside an active window: each call
enqueues a fresh waiter (positions `1, …`) and reschedules the timer, never
touching the leading call's settled waiter, the stored `result`, or the
invocation history. -/
theorem dpCalls_run_im (fn : List α → FnRes ε β) (out : Except ε β)
    (a0 : List α) (as : List (List α)) :
    ∀ (k : Nat) (x : List α),
      (as.map Ev.call).foldl (dpStep true fn)
          ⟨true, some x, List.range' 1 k, some out,
            .settled out :: List.replicate k .pending, [a0], [], none⟩ =
        ⟨true, some (as.getLastD x), List.range' 1 (k + as.length), some out,
          .settled out :: List.replicate (k + as.length) .pending,
          [a0], [], none⟩ := by
  induction as with
  | nil => intro k x; simp
  | cons a as ih =>
    intro k x
    have hstep : dpStep true fn
        (⟨true, some x, List.range' 1 k, some out,
          .settled out :: List.replicate k .pending, [a0], [], none⟩ :
            DpState α ε β) (Ev.call a) =
        ⟨true, some a, List.range' 1 (k + 1), some out,
          .settled out :: List.replicate (k + 1) .pending, [a0], [], none⟩ := by
      simp [dpStep, dpCall, dpCancel, List.range'_concat, List.replicate_succ',
        Nat.add_comm]
    simp only [List.map_cons, List.foldl_cons, hstep]
    rw [ih (k + 1) a]
    have h1 : k + 1 + as.length = k + (a :: as).length := by
      simp only [List.length_cons]
      omega
    rw [h1, List.getLastD_cons]

/-- `setWaiter` leaves positions below the updated one untouched; in
particular updating positions `≥ 1` preserves the head. -/
theorem foldl_setWaiter_head (r : WaiterSt ε β) (l : List Nat) :
    ∀ (w0 : WaiterSt ε β) (ws : List (WaiterSt ε β)), (∀ i ∈ l, 1 ≤ i) →
      ∃ ws', l.foldl (fun acc i => setWaiter acc i r) (w0 :: ws) = w0 :: ws' := by
  induction l with
  | nil => intro w0 ws h; exact ⟨ws, rfl⟩
  | cons i l ih =>
    intro w0 ws h
    have hi : 1 ≤ i := h i (by simp)
    obtain ⟨j, rfl⟩ : ∃ j, i = j + 1 := ⟨i - 1, by omega⟩
    simpa [setWaiter] using
      ih w0 (setWaiter ws j r) (fun i hi => h i (by simp [hi]))

theorem setWaiter_length (r : WaiterSt ε β) :
    ∀ (ws : List (WaiterSt ε β)) (k : Nat), (setWaiter ws k r).length = ws.length := by
  intro ws
  induction ws with
  | nil => intro k; rfl
  | cons x rest ih =>
    intro k
    cases k with
    | zero => rfl
    | succ k => simp [setWaiter, ih k]

theorem entAt_setWaiter_eq (r : WaiterSt ε β) :
    ∀ (ws : List (WaiterSt ε β)) (k : Nat), k < ws.length →
      entAt (setWaiter ws k r) k = some r := by
  intro ws
  induction ws with
  | nil => intro k h; simp at h
  | cons x rest ih =>
    intro k h
    cases k with
    | zero => rfl
    | succ k =>
      simp only [List.length_cons] at h
      simpa [setWaiter, entAt] using ih k (by omega)

theorem entAt_setWaiter_ne (r : WaiterSt ε β) :
    ∀ (ws : List (WaiterSt ε β)) (k j : Nat), k ≠ j →
      entAt (setWaiter ws k r) j = entAt ws j := by
  intro ws
  induction ws with
  | nil => intro k j h; cases k <;> rfl
  | cons x rest ih =>
    intro k j h
    cases k with
    | zero =>
      cases j with
      | zero => exact absurd rfl h
      | succ j => rfl
    | succ k =>
      cases j with
      | zero => rfl
      | succ j => simpa [setWaiter, entAt] using ih k j (by omega)

theorem foldl_setWaiter_notmem (r : WaiterSt ε β) (l : List Nat) :
    ∀ (ws : List (WaiterSt ε β)) (w : Nat), w ∉ l →
      entAt (l.foldl (fun acc i => setWaiter acc i r) ws) w = entAt ws w := by
  induction l with
  | nil => intro ws w h; rfl
  | cons i l ih =>
    intro ws w h
    have hne : i ≠ w := fun he => h (by simp [he])
    rw [List.foldl_cons, ih _ w (fun hm => h (by simp [hm])),
      entAt_setWaiter_ne r ws i w hne]

theorem foldl_setWaiter_mem (r : WaiterSt ε β) (l : List Nat) :
    ∀ (ws : List (WaiterSt ε β)) (w : Nat), w ∈ l → w < ws.length →
      entAt (l.foldl (fun acc i => setWaiter acc i r) ws) w = some r := by
  induction l with
  | nil => intro ws w h; simp at h
  | cons i l ih =>
    intro ws w hmem hlt
    rw [List.foldl_cons]
    by_cases hw : w ∈ l
    · exact ih _ w hw (by rw [setWaiter_length]; exact hlt)
    · have hiw : w = i := by
        rcases List.mem_cons.1 hmem with h | h
        · exact h
        · exact absurd h hw
      subst hiw
      rw [foldl_setWaiter_notmem r l _ w hw, entAt_setWaiter_eq r ws w hlt]

/-- Firing the non-immediate timer always records exactly one invocation of
`fn`, with the scheduling call's arguments. -/
theorem dpFire_fnCalls (fn : List α → FnRes ε β) (σ : DpState α ε β)
    (x : List α) (h : σ.live = some x) :
    (dpFire false fn σ).fnCalls = σ.fnCalls ++ [x] := by
  cases hf : fn x <;> simp [dpFire, h, hf, dpSettleAll]

/-! ## Claims C2, C3 -/

/-- C2: within one coalescing window of `debouncePromise`, `fn` is invoked
exactly once.  Non-immediate mode: a window of calls closed by the timer
invokes `fn` once, at expiry, with the arguments of the last call.
Immediate mode: the first call of a fresh window invokes `fn` synchronously,
that caller's own promise settles at once with `fn`'s outcome, and the
timer-driven close of the window does not re-run `fn` (the invocation
history is still just the leading call). -/
theorem debouncePromise_window (α ε β : Type) (fn : List α → FnRes ε β)
    (a : List α) (as : List (List α)) :
    (dpExec false fn (((a :: as).map Ev.call) ++ [Ev.fire])).fnCalls
        = [as.getLastD a] ∧
    (∀ out : Except ε β, fn a = .val out →
      (dpExec true fn (((a :: as).map Ev.call) ++ [Ev.fire])).fnCalls = [a] ∧
      (dpExec true fn (((a :: as).map Ev.call) ++ [Ev.fire])).waiters.head?
          = some (.settled out)) := by
  constructor
  · have hc1 : dpStep false fn (dpInit : DpState α ε β) (Ev.call a) =
        ⟨true, some a, List.range 1, none, List.replicate 1 .pending,
          [], [], none⟩ := by
      simp [dpStep, dpCall, dpCancel, dpInit, List.range_succ]
    have hcalls : dpExec false fn ((a :: as).map Ev.call) =
        ⟨true, some (as.getLastD a), List.range (1 + as.length), none,
          List.replicate (1 + as.length) .pending, [], [], none⟩ := by
      show List.foldl (dpStep false fn) dpInit (Ev.call a :: as.map Ev.call) = _
      rw [List.foldl_cons, hc1, dpCalls_run_nonim fn as 1 a]
    rw [dpExec_append]
    simp only [List.foldl_cons, List.foldl_nil, dpStep]
    rw [dpFire_fnCalls fn _ (as.getLastD a) (by rw [hcalls]), hcalls]
    rfl
  · intro out hout
    have hc1 : dpStep true fn (dpInit : DpState α ε β) (Ev.call a) =
        ⟨true, some a, List.range' 1 0, some out,
          .settled out :: List.replicate 0 .pending, [a], [], none⟩ := by
      simp [dpStep, dpCall, dpCancel, dpInit, hout]
    have hcalls : dpExec true fn ((a :: as).map Ev.call) =
        ⟨true, some (as.getLastD a), List.range' 1 as.length, some out,
          .settled out :: List.replicate as.length .pending, [a], [], none⟩ := by
      show List.foldl (dpStep true fn) dpInit (Ev.call a :: as.map Ev.call) = _
      rw [List.foldl_cons, hc1, dpCalls_run_im fn out a as 0 a]
      simp
    rw [dpExec_append, hcalls]
    have hflush := foldl_setWaiter_head (ε := ε) (β := β)
      (.settled out) (List.range' 1 as.length) (.settled out)
      (List.replicate as.length .pending)
      (by intro i hi; exact (List.mem_range'_1.1 hi).1)
    obtain ⟨ws', hws'⟩ := hflush
    simp only [List.foldl_cons, List.foldl_nil, dpStep, dpFire, dpSettleAll,
      resOutcome]
    constructor
    · rfl
    · rw [hws']
      rfl

/-- C3 counterexample: in non-immediate mode, when `fn` throws synchronously
inside the timer callback, the waiter batch does *not* reject with that
error: the crash skips the flush, so the sole waiter stays pending forever,
the waiter list is not cleared, `timerId` is never nulled, and the error
escapes as an uncaught exception.  This falsifies "if fn throws
(synchronously, converted to a rejection) …, every member of that waiter
batch rejects with that same error" at a concrete input. -/
theorem debouncePromise_throw_cex :
    (dpExec false c3fn [Ev.call [1], Ev.fire]).waiters = [WaiterSt.pending] ∧
    (dpExec false c3fn [Ev.call [1], Ev.fire]).resolveList = [0] ∧
    (dpExec false c3fn [Ev.call [1], Ev.fire]).uncaught = some 7 ∧
    (dpExec false c3fn [Ev.call [1], Ev.fire]).timerVar = true := by
  exact ⟨rfl, rfl, rfl, rfl⟩

/-- C3 (amended): when the window closes and the invocation produces an
outcome (`fn` returns a value or a promise, including a rejected one), every
waiter queued in the window is resolved with that same shared outcome, in
enqueue order (`settleLog` extends by exactly the queue), and the waiter
list is cleared — in particular a rejected outcome rejects every waiter of
the batch with that same error.  But if `fn` throws synchronously in
non-immediate mode, the flush is skipped: the waiters stay pending, the
list is not cleared, and the error is uncaught. -/
theorem debouncePromise_flush (α ε β : Type) (fn : List α → FnRes ε β)
    (σ : DpState α ε β) (targs : List α) (hlive : σ.live = some targs)
    (hids : ∀ w ∈ σ.resolveList, w < σ.waiters.length) :
    (∀ out : Except ε β, fn targs = .val out →
      (dpFire false fn σ).resolveList = [] ∧
      (dpFire false fn σ).timerVar = false ∧
      (dpFire false fn σ).settleLog = σ.settleLog ++ σ.resolveList ∧
      (∀ w ∈ σ.resolveList,
        entAt (dpFire false fn σ).waiters w = some (.settled out))) ∧
    (∀ e : ε, fn targs = .thrown e →
      dpFire false fn σ =
        { σ with live := none, uncaught := some e,
                 fnCalls := σ.fnCalls ++ [targs] }) := by
  constructor
  · intro out hout
    simp only [dpFire, hlive, dpSettleAll, hout, resOutcome]
    refine ⟨rfl, rfl, rfl, ?_⟩
    intro w hw
    exact foldl_setWaiter_mem (.settled out) σ.resolveList σ.waiters w hw
      (hids w hw)
  · intro e he
    simp [dpFire, hlive, he]

/-- Witness for C2's immediate-mode conjunct at concrete inputs. -/
theorem debouncePromise_window_witness :
    (dpExec true (fun _ => FnRes.val (Except.ok 5))
        ((([3], [4]).1 :: [([3], [4]).2]).map Ev.call ++ [Ev.fire]) :
          DpState Nat Nat Nat).fnCalls = [[3]] ∧
    (dpExec true (fun _ => FnRes.val (Except.ok 5))
        ((([3], [4]).1 :: [([3], [4]).2]).map Ev.call ++ [Ev.fire]) :
          DpState Nat Nat Nat).waiters.head? = some (.settled (Except.ok 5)) :=
  (debouncePromise_window Nat Nat Nat (fun _ => FnRes.val (Except.ok 5))
    [3] [[4]]).2 (Except.ok 5) rfl

/-- Witness for the amended C3 theorem at a concrete state: two waiters
queued in one window, `fn` returning a rejected promise; both waiters reject
with that error and the list is cleared. -/
theorem debouncePromise_flush_witness :
    ((dpFire false (fun _ => FnRes.val (Except.error 9))
        (⟨true, some [2], [0, 1], none,
          [WaiterSt.pending, WaiterSt.pending], [], [], none⟩ :
            DpState Nat Nat Nat)).resolveList = [] ∧
      entAt (dpFire false (fun _ => FnRes.val (Except.error 9))
        (⟨true, some [2], [0, 1], none,
          [WaiterSt.pending, WaiterSt.pending], [], [], none⟩ :
            DpState Nat Nat Nat)).waiters 1 =
        some (.settled (Except.error 9))) := by
  have h := (debouncePromise_flush Nat Nat Nat
    (fun _ => FnRes.val (Except.error 9))
    ⟨true, some [2], [0, 1], none,
      [WaiterSt.pending, WaiterSt.pending], [], [], none⟩ [2] rfl
    (by intro w hw; fin_cases hw <;> simp)).1 (Except.error 9) rfl
  exact ⟨h.1, h.2.2.2 1 (by simp)⟩

/-! ## `concurrentN` (src/promises.js)

```js
const concurrentN = (concurrency, ...fns) => (...args) =>
  new Promise((resolve, reject) => {
    const promises = []
    let lastIndex = 0
    let running = 0
    function run (currentIndex) {
      if (promises.length === fns.length) {
        resolve(Promise.all(promises))
        return
      }
      const promise = toPromise(fns[currentIndex](...args))
      promises.push(promise)
      lastIndex = currentIndex
      running++
      next()
      promise
        .then(() => { running--; next() })
        .catch(reject)
    }
    function next () {
      if (running < concurrency) {
        run(lastIndex + 1)
      }
    }
    return run(lastIndex)
  })
```

A task is represented by what invoking it does: throw synchronously, or
return a value/promise whose eventual settled outcome is known
(`TaskSpec.promise out`; `toPromise` normalises plain values, so a plain
value is `promise (.ok v)`).  The synchronous recursion `run`/`next` is the
fuel-indexed `runLoop`; a synchronous throw propagates out of the whole
recursive burst (unwinding it before the `.then/.catch` handlers of the
tasks started by that burst are attached) and is caught either by the
`Promise` executor (initial burst) or by the `.catch` of the settling
promise whose `.then` callback ran the burst — both modelled by `burstOut`.
Settlement order of the started promises is an arbitrary external schedule:
a list of start-order indices fed to `settleStep`. -/

theorem entAt_none_of_le : ∀ (l : List γ) (j : Nat), l.length ≤ j →
    entAt l j = none := by
  intro l
  induction l with
  | nil => intro j h; cases j <;> rfl
  | cons x rest ih =>
    intro j h
    cases j with
    | zero => simp at h
    | succ j => exact ih j (by simpa using h)

theorem entAt_lt_length : ∀ (l : List γ) (j : Nat) (x : γ),
    entAt l j = some x → j < l.length := by
  intro l
  induction l with
  | nil => intro j x h; cases j <;> simp [entAt] at h
  | cons y rest ih =>
    intro j x h
    cases j with
    | zero => simp
    | succ j =>
      simp only [List.length_cons]
      exact Nat.succ_lt_succ (ih j x h)

theorem entAt_mem : ∀ (l : List γ) (j : Nat) (x : γ),
    entAt l j = some x → x ∈ l := by
  intro l
  induction l with
  | nil => intro j x h; cases j <;> simp [entAt] at h
  | cons y rest ih =>
    intro j x h
    cases j with
    | zero =>
      simp only [entAt] at h
      exact List.mem_cons.2 (Or.inl (Option.some.inj h).symm)
    | succ j => exact List.mem_cons_of_mem y (ih j x h)

theorem entAt_append_lt : ∀ (l l' : List γ) (j : Nat), j < l.length →
    entAt (l ++ l') j = entAt l j := by
  intro l
  induction l with
  | nil => intro l' j h; simp at h
  | cons x rest ih =>
    intro l' j h
    cases j with
    | zero => rfl
    | succ j => exact ih l' j (by simpa using h)

theorem entAt_append_len : ∀ (l : List γ) (x : γ),
    entAt (l ++ [x]) l.length = some x := by
  intro l
  induction l with
  | nil => intro x; rfl
  | cons y rest ih => intro x; exact ih x

theorem entAt_of_lt : ∀ (l : List γ) (j : Nat), j < l.length →
    ∃ x, entAt l j = some x := by
  intro l
  induction l with
  | nil => intro j h; simp at h
  | cons y rest ih =>
    intro j h
    cases j with
    | zero => exact ⟨y, rfl⟩
    | succ j => exact ih j (by simpa using h)

theorem setAttachedAt_length : ∀ (l : List (CEntry ε β)) (k : Nat),
    (setAttachedAt l k).length = l.length := by
  intro l
  induction l with
  | nil => intro k; rfl
  | cons x rest ih =>
    intro k
    cases k with
    | zero => rfl
    | succ k => simp [setAttachedAt, ih k]

theorem setSettledAt_length : ∀ (l : List (CEntry ε β)) (k : Nat),
    (setSettledAt l k).length = l.length := by
  intro l
  induction l with
  | nil => intro k; rfl
  | cons x rest ih =>
    intro k
    cases k with
    | zero => rfl
    | succ k => simp [setSettledAt, ih k]

theorem entAt_setAttachedAt_eq : ∀ (l : List (CEntry ε β)) (k : Nat)
    (ent : CEntry ε β), entAt l k = some ent →
      entAt (setAttachedAt l k) k = some { ent with attached := true } := by
  intro l
  induction l with
  | nil => intro k ent h; cases k <;> simp [entAt] at h
  | cons x rest ih =>
    intro k ent h
    cases k with
    | zero =>
      simp only [entAt] at h
      obtain rfl := Option.some.inj h
      rfl
    | succ k => exact ih k ent h

theorem entAt_setSettledAt_eq : ∀ (l : List (CEntry ε β)) (k : Nat)
    (ent : CEntry ε β), entAt l k = some ent →
      entAt (setSettledAt l k) k = some { ent with settled := true } := by
  intro l
  induction l with
  | nil => intro k ent h; cases k <;> simp [entAt] at h
  | cons x rest ih =>
    intro k ent h
    cases k with
    | zero =>
      simp only [entAt] at h
      obtain rfl := Option.some.inj h
      rfl
    | succ k => exact ih k ent h

theorem entAt_setAttachedAt_ne : ∀ (l : List (CEntry ε β)) (k j : Nat),
    j ≠ k → entAt (setAttachedAt l k) j = entAt l j := by
  intro l
  induction l with
  | nil => intro k j h; cases k <;> rfl
  | cons x rest ih =>
    intro k j h
    cases k with
    | zero =>
      cases j with
      | zero => exact absurd rfl h
      | succ j => rfl
    | succ k =>
      cases j with
      | zero => rfl
      | succ j => exact ih k j (by omega)

theorem entAt_setSettledAt_ne : ∀ (l : List (CEntry ε β)) (k j : Nat),
    j ≠ k → entAt (setSettledAt l k) j = entAt l j := by
  intro l
  induction l with
  | nil => intro k j h; cases k <;> rfl
  | cons x rest ih =>
    intro k j h
    cases k with
    | zero =>
      cases j with
      | zero => exact absurd rfl h
      | succ j => rfl
    | succ k =>
      cases j with
      | zero => rfl
      | succ j => exact ih k j (by omega)

theorem doneCount_append (l : List (CEntry ε β)) (ent : CEntry ε β) :
    doneCount (l ++ [ent]) = doneCount l +
      (if ent.attached && ent.settled && planIsOk ent.plan then 1 else 0) := by
  induction l with
  | nil => simp [doneCount]
  | cons x rest ih => simp [doneCount, ih]; omega

/-- Marking an unsettled, attached, fulfilled entry settled runs its `.then`
callback: the done count grows by one. -/
theorem doneCount_setSettledAt_ok : ∀ (l : List (CEntry ε β)) (k : Nat)
    (ent : CEntry ε β), entAt l k = some ent → ent.attached = true →
      ent.settled = false → planIsOk ent.plan = true →
      doneCount (setSettledAt l k) = doneCount l + 1 := by
  intro l
  induction l with
  | nil => intro k ent h; cases k <;> simp [entAt] at h
  | cons x rest ih =>
    intro k ent h ha hs hok
    cases k with
    | zero =>
      simp only [entAt] at h
      obtain rfl := Option.some.inj h
      simp [setSettledAt, doneCount, ha, hs, hok]
      omega
    | succ k =>
      simp only [setSettledAt, doneCount]
      rw [ih k ent h ha hs hok]
      omega

/-- Settling an entry that is rejected or unattached performs no decrement:
the done count is unchanged. -/
theorem doneCount_setSettledAt_other : ∀ (l : List (CEntry ε β)) (k : Nat)
    (ent : CEntry ε β), entAt l k = some ent →
      (ent.attached = false ∨ planIsOk ent.plan = false) →
      doneCount (setSettledAt l k) = doneCount l := by
  intro l
  induction l with
  | nil => intro k ent h; cases k <;> simp [entAt] at h
  | cons x rest ih =>
    intro k ent h hcase
    cases k with
    | zero =>
      simp only [entAt] at h
      obtain rfl := Option.some.inj h
      rcases hcase with hc | hc <;>
        simp [setSettledAt, doneCount, hc]
    | succ k =>
      simp only [setSettledAt, doneCount]
      rw [ih k ent h hcase]

/-- Attaching the handlers of an unsettled entry does not change the done
count. -/
theorem doneCount_setAttachedAt_unsettled : ∀ (l : List (CEntry ε β))
    (k : Nat) (ent : CEntry ε β), entAt l k = some ent → ent.settled = false →
      doneCount (setAttachedAt l k) = doneCount l := by
  intro l
  induction l with
  | nil => intro k ent h; cases k <;> simp [entAt] at h
  | cons x rest ih =>
    intro k ent h hs
    cases k with
    | zero =>
      simp only [entAt] at h
      obtain rfl := Option.some.inj h
      simp [setAttachedAt, doneCount, hs]
    | succ k =>
      simp only [setAttachedAt, doneCount]
      rw [ih k ent h hs]

/-- An uncounted entry bounds the done count strictly below the length. -/
theorem doneCount_lt_of_uncounted : ∀ (l : List (CEntry ε β)) (k : Nat)
    (ent : CEntry ε β), entAt l k = some ent →
      (ent.attached && ent.settled && planIsOk ent.plan) = false →
      doneCount l + 1 ≤ l.length := by
  intro l
  induction l with
  | nil => intro k ent h; cases k <;> simp [entAt] at h
  | cons x rest ih =>
    intro k ent h hflag
    have hlen : doneCount rest ≤ rest.length := by
      clear h hflag ih
      induction rest with
      | nil => simp [doneCount]
      | cons y r ihr =>
        simp only [doneCount, List.length_cons]
        split <;> omega
    cases k with
    | zero =>
      simp only [entAt] at h
      obtain rfl := Option.some.inj h
      simp [doneCount, hflag, List.length_cons]
      omega
    | succ k =>
      have := ih k ent h hflag
      simp only [doneCount, List.length_cons]
      split <;> omega

/-! ### Settlement bookkeeping of the outer promise -/

theorem adoptIfNone_ne_none (o : Option (COuter ε)) : adoptIfNone o ≠ none := by
  cases o <;> simp [adoptIfNone]

theorem rejectIfNone_ne_none (o : Option (COuter ε)) (e : ε) :
    rejectIfNone o e ≠ none := by
  cases o <;> simp [rejectIfNone]

theorem adoptIfNone_eq_rejected (o : Option (COuter ε)) (e : ε) :
    adoptIfNone o = some (.rejected e) → o = some (.rejected e) := by
  cases o with
  | none => simp [adoptIfNone]
  | some x => simp [adoptIfNone]

theorem rejectIfNone_eq_adopted (o : Option (COuter ε)) (e : ε) :
    rejectIfNone o e = some .adopted → o = some .adopted := by
  cases o with
  | none => simp [rejectIfNone]
  | some x => simp [rejectIfNone]

theorem rejectIfNone_eq_rejected (o : Option (COuter ε)) (e e0 : ε) :
    rejectIfNone o e = some (.rejected e0) →
      (o = none ∧ e0 = e) ∨ o = some (.rejected e0) := by
  cases o with
  | none =>
    intro h
    simp only [rejectIfNone, Option.some.injEq, COuter.rejected.injEq] at h
    exact Or.inl ⟨rfl, h.symm⟩
  | some x => simp [rejectIfNone]

theorem orFirst_eq_some (o : Option ε) (e e0 : ε) :
    orFirst o e = some e0 → (o = none ∧ e0 = e) ∨ o = some e0 := by
  cases o with
  | none =>
    intro h
    exact Or.inl ⟨rfl, (Option.some.inj h).symm⟩
  | some x => simp [orFirst]

theorem orFirst_ne_none (o : Option ε) (e : ε) : orFirst o e ≠ none := by
  cases o <;> simp [orFirst]

/-! ### One `run` burst: step lemmas -/

theorem runLoop_guard [Inhabited ε] (c : Nat) (plans : List (TaskSpec ε β))
    (fuel i : Nat) (σ : CState ε β)
    (hguard : σ.promises.length = plans.length) :
    runLoop c plans (fuel + 1) i σ =
      ({ σ with outer := adoptIfNone σ.outer }, none) := by
  simp [runLoop, hguard]

theorem runLoop_throws [Inhabited ε] (c : Nat) (plans : List (TaskSpec ε β))
    (fuel i : Nat) (σ : CState ε β) (e : ε)
    (hguard : ¬ σ.promises.length = plans.length)
    (htask : taskAt plans i = .throws e) :
    runLoop c plans (fuel + 1) i σ =
      ({ σ with invocations := σ.invocations ++ [i],
                firstFail := orFirst σ.firstFail e }, some e) := by
  simp [runLoop, hguard, htask]

theorem runLoop_promise [Inhabited ε] (c : Nat) (plans : List (TaskSpec ε β))
    (fuel i : Nat) (σ : CState ε β) (out : Except ε β)
    (hguard : ¬ σ.promises.length = plans.length)
    (htask : taskAt plans i = .promise out) :
    runLoop c plans (fuel + 1) i σ =
      (match (if (pushState σ i out).running < c then
                runLoop c plans fuel (i + 1) (pushState σ i out)
              else (pushState σ i out, none)) with
        | (σ2, some e) => (σ2, some e)
        | (σ2, none) =>
          ({ σ2 with promises := setAttachedAt σ2.promises σ.promises.length },
            none)) := by
  simp only [runLoop, hguard, htask, pushState]
  rfl

/-- All mid-burst invariants survive a successful task start. -/
theorem CPre_push [Inhabited ε] (c : Nat) (plans : List (TaskSpec ε β))
    (σ : CState ε β) (out : Except ε β) (hp : CPre c plans σ)
    (hlt : σ.promises.length < plans.length)
    (htask : taskAt plans σ.promises.length = .promise out)
    (hrun : σ.running < c) :
    CPre c plans (pushState σ σ.promises.length out) := by
  set n := σ.promises.length with hn
  refine ⟨?_, ?_, ?_, ?_, ?_, ?_, ?_, ?_, ?_, ?_, ?_, ?_, ?_, ?_, ?_, ?_⟩
  · simpa [pushState] using hlt
  · intro j ent hj
    simp only [pushState] at hj
    rcases Nat.lt_trichotomy j n with hcmp | hcmp | hcmp
    · rw [entAt_append_lt _ _ _ hcmp] at hj
      exact hp.entPlan j ent hj
    · subst hcmp
      rw [entAt_append_len] at hj
      obtain rfl := Option.some.inj hj
      simpa using htask
    · rw [entAt_none_of_le _ j (by simp [hn]; omega)] at hj
      exact absurd hj (by simp)
  · simp [pushState]
  · have := hp.runEq
    simp only [pushState, doneCount_append]
    simp only [List.length_append, List.length_singleton]
    simp [doneCount]
    omega
  · simp only [pushState]
    exact Nat.le_max_right _ _
  · simp only [pushState]
    exact Nat.max_le.2 ⟨hp.maxLe, hrun⟩
  · simpa [pushState] using hp.noneFail
  · simpa [pushState] using hp.rejFail
  · intro h
    simp only [pushState] at h
    have := hp.adoptedAll h
    omega
  · simpa [pushState] using hp.failProv
  · intro e he
    simp only [pushState] at he ⊢
    obtain ⟨j, ent, hj, hplan⟩ := hp.rejProv e he
    exact ⟨j, ent, by
      rw [entAt_append_lt _ _ _ (entAt_lt_length _ _ _ hj)]
      exact hj, hplan⟩
  · intro h j ent hj hs
    simp only [pushState] at h hj
    rcases Nat.lt_trichotomy j n with hcmp | hcmp | hcmp
    · rw [entAt_append_lt _ _ _ hcmp] at hj
      exact hp.rejNone h j ent hj hs
    · subst hcmp
      rw [entAt_append_len] at hj
      obtain rfl := Option.some.inj hj
      simp at hs
    · rw [entAt_none_of_le _ j (by simp [hn]; omega)] at hj
      exact absurd hj (by simp)
  · intro x hx
    simp only [pushState, List.length_append, List.length_singleton]
    simp only [pushState, List.mem_append, List.mem_singleton] at hx
    rcases hx with hx | hx
    · have := hp.invLe x hx
      omega
    · omega
  · simp only [pushState]
    refine List.pairwise_append.2 ⟨hp.invSorted, List.pairwise_singleton _ _, ?_⟩
    intro a ha b hb
    rw [List.mem_singleton.1 hb]
    exact hp.invLe a ha
  · intro hnt
    simp only [pushState, List.length_append, List.length_singleton]
    rw [hp.invRange hnt, ← List.range_succ]
  · simpa [pushState] using hp.failNone

/-- The `run` burst guard: all tasks started, `resolve(Promise.all(..))`. -/
theorem RLPost_guard [Inhabited ε] (c : Nat) (plans : List (TaskSpec ε β))
    (σ : CState ε β) (hp : CPre c plans σ)
    (hguard : σ.promises.length = plans.length) :
    RLPost c plans σ { σ with outer := adoptIfNone σ.outer } := by
  refine ⟨⟨?_, ?_, ?_, ?_, ?_, ?_, ?_, ?_, ?_, ?_, ?_, ?_, ?_, ?_, ?_, ?_⟩,
    rfl, fun j hj => rfl, Nat.le_refl _, ?_, ?_, ?_⟩
  · exact hp.lenLe
  · exact hp.entPlan
  · exact hp.lastIdx
  · exact hp.runEq
  · exact hp.runLe
  · exact hp.maxLe
  · intro h
    exact absurd h (adoptIfNone_ne_none σ.outer)
  · intro e h
    exact hp.rejFail e (adoptIfNone_eq_rejected σ.outer e h)
  · intro h
    exact hguard
  · exact hp.failProv
  · exact hp.rejProv
  · exact hp.rejNone
  · exact hp.invLe
  · exact hp.invSorted
  · exact hp.invRange
  · exact hp.failNone
  · intro j ent hle hj
    rw [entAt_none_of_le _ j (le_trans hp.lenLe (hguard ▸ hle))] at hj
    exact absurd hj (by simp)
  · intro h
    exact absurd h (adoptIfNone_ne_none σ.outer)
  · intro h
    exact absurd h (adoptIfNone_ne_none σ.outer)

/-- The `run` burst hits a synchronously throwing task: the exception unwinds
the burst and is caught as a rejection of the outer promise. -/
theorem RLPost_throwStep [Inhabited ε] (c : Nat) (plans : List (TaskSpec ε β))
    (σ : CState ε β) (e : ε) (hp : CPre c plans σ)
    (hlt : σ.promises.length < plans.length)
    (htask : taskAt plans σ.promises.length = .throws e) :
    RLPost c plans σ (burstOut
      ({ σ with invocations := σ.invocations ++ [σ.promises.length],
                firstFail := orFirst σ.firstFail e }, some e)) := by
  simp only [burstOut]
  refine ⟨⟨?_, ?_, ?_, ?_, ?_, ?_, ?_, ?_, ?_, ?_, ?_, ?_, ?_, ?_, ?_, ?_⟩,
    rfl, fun j hj => rfl, Nat.le_refl _, ?_, ?_, ?_⟩
  · exact hp.lenLe
  · exact hp.entPlan
  · exact hp.lastIdx
  · exact hp.runEq
  · exact hp.runLe
  · exact hp.maxLe
  · intro h
    exact absurd h (rejectIfNone_ne_none σ.outer e)
  · intro e0 h
    have h' : rejectIfNone σ.outer e = some (COuter.rejected e0) := h
    show orFirst σ.firstFail e = some e0
    rcases rejectIfNone_eq_rejected σ.outer e e0 h' with ⟨ho, rfl⟩ | ho
    · rw [hp.noneFail ho]
      rfl
    · rw [hp.rejFail e0 ho]
      rfl
  · intro h
    have := hp.adoptedAll (rejectIfNone_eq_adopted σ.outer e h)
    omega
  · intro e0 h
    rcases orFirst_eq_some σ.firstFail e e0 h with ⟨ho, rfl⟩ | ho
    · exact ⟨σ.promises.length, hlt, Or.inl htask⟩
    · exact hp.failProv e0 ho
  · exact hp.rejProv
  · exact hp.rejNone
  · intro x hx
    rcases List.mem_append.1 hx with hx | hx
    · exact hp.invLe x hx
    · rw [List.mem_singleton.1 hx]
  · exact List.pairwise_append.2 ⟨hp.invSorted, List.pairwise_singleton _ _,
      fun a ha b hb => by rw [List.mem_singleton.1 hb]; exact hp.invLe a ha⟩
  · intro hnt
    obtain ⟨t, hts⟩ := entAt_of_lt plans σ.promises.length hlt
    obtain ⟨o, rfl⟩ := hnt t (entAt_mem _ _ _ hts)
    rw [show taskAt plans σ.promises.length = TaskSpec.promise o by
      simp [taskAt, hts]] at htask
    exact absurd htask (by simp)
  · intro h
    exact absurd h (orFirst_ne_none σ.firstFail e)
  · intro j ent hle hj
    have hj' : entAt σ.promises j = some ent := hj
    rw [entAt_none_of_le σ.promises j hle] at hj'
    exact absurd hj' (by simp)
  · intro h
    exact absurd h (rejectIfNone_ne_none σ.outer e)
  · intro h
    exact absurd h (rejectIfNone_ne_none σ.outer e)

/-- `next()` declines to start another task: the burst ends with `running`
saturated at the concurrency limit. -/
theorem RLPost_refl_blocked [Inhabited ε] (c : Nat)
    (plans : List (TaskSpec ε β)) (σ : CState ε β) (hp : CPre c plans σ)
    (hrun : σ.running = c) : RLPost c plans σ σ := by
  refine ⟨hp, rfl, fun j hj => rfl, Nat.le_refl _, ?_, fun h => h, fun h => hrun⟩
  intro j ent hle hj
  rw [entAt_none_of_le σ.promises j hle] at hj
  exact absurd hj (by simp)

/-- Composing a task start with the rest of its burst when the burst was
unwound by a synchronous throw (the outer promise is then settled). -/
theorem RLPost_throwCompose [Inhabited ε] (c : Nat)
    (plans : List (TaskSpec ε β)) (σ σ' : CState ε β) (out : Except ε β)
    (hp : CPre c plans σ)
    (post1 : RLPost c plans (pushState σ σ.promises.length out) σ')
    (hne : σ'.outer ≠ none) : RLPost c plans σ σ' := by
  have hlen1 : (pushState σ σ.promises.length out).promises.length =
      σ.promises.length + 1 := by
    simp [pushState]
  refine ⟨post1.pre, ?_, ?_, ?_, ?_, ?_, ?_⟩
  · rw [post1.firstRejEq]
    rfl
  · intro j hj
    rw [post1.lowPreserve j (by omega)]
    show entAt (σ.promises ++ [⟨out, false, false⟩]) j = entAt σ.promises j
    exact entAt_append_lt _ _ _ hj
  · have := post1.lenMono
    omega
  · intro j ent hle hj
    refine ⟨?_, fun h => absurd h hne⟩
    rcases Nat.lt_or_ge j (σ.promises.length + 1) with hcmp | hcmp
    · have hjeq : j = σ.promises.length := by omega
      rw [hjeq] at hj
      rw [post1.lowPreserve σ.promises.length (by omega)] at hj
      have hj' : entAt (σ.promises ++ [⟨out, false, false⟩])
          σ.promises.length = some ent := hj
      rw [entAt_append_len] at hj'
      obtain rfl := Option.some.inj hj'
      rfl
    · exact (post1.highNew j ent (by omega) hj).1
  · intro h
    exact absurd h hne
  · intro h
    exact absurd h hne

/-- Composing a task start with the rest of its burst when the burst unwound
normally: on return from `run`, the `.then/.catch` handlers of the task this
frame started are attached. -/
theorem RLPost_attachCompose [Inhabited ε] (c : Nat)
    (plans : List (TaskSpec ε β)) (σ σ' : CState ε β) (out : Except ε β)
    (hp : CPre c plans σ)
    (hlt : σ.promises.length < plans.length)
    (htask : taskAt plans σ.promises.length = .promise out)
    (post1 : RLPost c plans (pushState σ σ.promises.length out) σ') :
    RLPost c plans σ
      { σ' with promises := setAttachedAt σ'.promises σ.promises.length } := by
  set n := σ.promises.length with hn
  have hlen1 : (pushState σ n out).promises.length = n + 1 := by
    simp [pushState]
  have hentn : entAt σ'.promises n = some ⟨out, false, false⟩ := by
    have h1 := post1.lowPreserve n (by omega)
    have h2 : entAt (pushState σ n out).promises n = some ⟨out, false, false⟩ := by
      show entAt (σ.promises ++ [⟨out, false, false⟩]) n = _
      exact entAt_append_len σ.promises _
    rw [h1, h2]
  have hsetn : entAt (setAttachedAt σ'.promises n) n =
      some ⟨out, true, false⟩ := by
    have := entAt_setAttachedAt_eq σ'.promises n _ hentn
    simpa using this
  have hlenset : (setAttachedAt σ'.promises n).length = σ'.promises.length :=
    setAttachedAt_length σ'.promises n
  refine ⟨⟨?_, ?_, ?_, ?_, ?_, ?_, ?_, ?_, ?_, ?_, ?_, ?_, ?_, ?_, ?_, ?_⟩,
    ?_, ?_, ?_, ?_, ?_, ?_⟩
  · show (setAttachedAt σ'.promises n).length ≤ plans.length
    rw [hlenset]
    exact post1.pre.lenLe
  · intro j ent hj
    have hj' : entAt (setAttachedAt σ'.promises n) j = some ent := hj
    by_cases hjn : j = n
    · subst hjn
      rw [hsetn] at hj'
      obtain rfl := Option.some.inj hj'
      simpa using htask
    · rw [entAt_setAttachedAt_ne σ'.promises n j hjn] at hj'
      exact post1.pre.entPlan j ent hj'
  · show σ'.lastIndex + 1 = (setAttachedAt σ'.promises n).length ∨
      ((setAttachedAt σ'.promises n).length = 0 ∧ σ'.lastIndex = 0)
    rw [hlenset]
    exact post1.pre.lastIdx
  · show σ'.running + doneCount (setAttachedAt σ'.promises n) =
      (setAttachedAt σ'.promises n).length
    rw [hlenset, doneCount_setAttachedAt_unsettled σ'.promises n _ hentn rfl]
    exact post1.pre.runEq
  · exact post1.pre.runLe
  · exact post1.pre.maxLe
  · exact post1.pre.noneFail
  · exact post1.pre.rejFail
  · intro h
    show (setAttachedAt σ'.promises n).length = plans.length
    rw [hlenset]
    exact post1.pre.adoptedAll h
  · exact post1.pre.failProv
  · intro e he
    obtain ⟨j, ent, hj, hplan⟩ := post1.pre.rejProv e he
    by_cases hjn : j = n
    · subst hjn
      rw [hentn] at hj
      obtain rfl := Option.some.inj hj
      exact ⟨n, ⟨out, true, false⟩, hsetn, hplan⟩
    · exact ⟨j, ent, by
        show entAt (setAttachedAt σ'.promises n) j = some ent
        rw [entAt_setAttachedAt_ne σ'.promises n j hjn]
        exact hj, hplan⟩
  · intro h j ent hj hs
    have hj' : entAt (setAttachedAt σ'.promises n) j = some ent := hj
    by_cases hjn : j = n
    · subst hjn
      rw [hsetn] at hj'
      obtain rfl := Option.some.inj hj'
      simp at hs
    · rw [entAt_setAttachedAt_ne σ'.promises n j hjn] at hj'
      exact post1.pre.rejNone h j ent hj' hs
  · intro x hx
    show x ≤ (setAttachedAt σ'.promises n).length
    rw [hlenset]
    exact post1.pre.invLe x hx
  · exact post1.pre.invSorted
  · intro hnt
    show σ'.invocations = List.range (setAttachedAt σ'.promises n).length
    rw [hlenset]
    exact post1.pre.invRange hnt
  · exact post1.pre.failNone
  · rw [post1.firstRejEq]
    rfl
  · intro j hj
    show entAt (setAttachedAt σ'.promises n) j = entAt σ.promises j
    rw [entAt_setAttachedAt_ne σ'.promises n j (by omega),
      post1.lowPreserve j (by omega)]
    exact entAt_append_lt _ _ _ hj
  · show n ≤ (setAttachedAt σ'.promises n).length
    rw [hlenset]
    have := post1.lenMono
    omega
  · intro j ent hle hj
    have hj' : entAt (setAttachedAt σ'.promises n) j = some ent := hj
    by_cases hjn : j = n
    · subst hjn
      rw [hsetn] at hj'
      obtain rfl := Option.some.inj hj'
      exact ⟨rfl, fun h => rfl⟩
    · rw [entAt_setAttachedAt_ne σ'.promises n j hjn] at hj'
      have := post1.highNew j ent (by omega) hj'
      exact ⟨this.1, this.2⟩
  · intro h
    exact post1.outerMono h
  · intro h
    exact post1.liveEnd h

/-- Main burst lemma: one `run(i)` invocation, together with the catch of
its possible synchronous throw, takes any state satisfying the mid-burst
invariants to a state satisfying them again, preserving already-started
entries, attaching the handlers of every entry it starts unless unwound by
a throw (in which case the outer promise is settled), and ending with
`running` saturated whenever the outer promise is still pending. -/
theorem runLoop_spec [Inhabited ε] (c : Nat) (plans : List (TaskSpec ε β))
    (hc : 1 ≤ c) :
    ∀ (fuel i : Nat) (σ : CState ε β),
      i = σ.promises.length →
      σ.running < c →
      plans.length < fuel + σ.promises.length →
      CPre c plans σ →
      RLPost c plans σ (burstOut (runLoop c plans fuel i σ)) := by
  intro fuel
  induction fuel with
  | zero =>
    intro i σ hi hrun hfuel hp
    exact absurd hfuel (by have := hp.lenLe; omega)
  | succ fuel ih =>
    intro i σ hi hrun hfuel hp
    by_cases hguard : σ.promises.length = plans.length
    · rw [runLoop_guard c plans fuel i σ hguard]
      exact RLPost_guard c plans σ hp hguard
    · have hlt : σ.promises.length < plans.length :=
        Nat.lt_of_le_of_ne hp.lenLe hguard
      subst hi
      cases htask : taskAt plans σ.promises.length with
      | throws e =>
        rw [runLoop_throws c plans fuel _ σ e hguard htask]
        exact RLPost_throwStep c plans σ e hp hlt htask
      | promise out =>
        rw [runLoop_promise c plans fuel _ σ out hguard htask]
        have hp1 : CPre c plans (pushState σ σ.promises.length out) :=
          CPre_push c plans σ out hp hlt htask hrun
        by_cases hlt2 : (pushState σ σ.promises.length out).running < c
        · have hpost := ih (σ.promises.length + 1)
            (pushState σ σ.promises.length out)
            (by simp [pushState]) hlt2 (by simp [pushState]; omega) hp1
          rw [if_pos hlt2]
          rcases hrl : runLoop c plans fuel (σ.promises.length + 1)
              (pushState σ σ.promises.length out) with ⟨σ2, th⟩
          rw [hrl] at hpost
          cases th with
          | some e =>
            exact RLPost_throwCompose c plans σ _ out hp hpost
              (by simp only [burstOut]; exact rejectIfNone_ne_none _ e)
          | none =>
            exact RLPost_attachCompose c plans σ σ2 out hp hlt htask hpost
        · rw [if_neg hlt2]
          have hrunpush : (pushState σ σ.promises.length out).running = c := by
            simp only [pushState] at hlt2 ⊢
            omega
          exact RLPost_attachCompose c plans σ _ out hp hlt htask
            (RLPost_refl_blocked c plans _ hp1 hrunpush)

/-- If position `k` holds no entry, `setSettledAt` is the identity. -/
theorem setSettledAt_of_none : ∀ (l : List (CEntry ε β)) (k : Nat),
    entAt l k = none → setSettledAt l k = l := by
  intro l
  induction l with
  | nil => intro k h; rfl
  | cons x rest ih =>
    intro k h
    cases k with
    | zero => simp [entAt] at h
    | succ k => simp [setSettledAt, ih k h]

/-- Where an entry of `setSettledAt l k` comes from. -/
theorem entAt_setSettledAt_cases (l : List (CEntry ε β)) (k j : Nat)
    (ent ent' : CEntry ε β) (hk : entAt l k = some ent)
    (h : entAt (setSettledAt l k) j = some ent') :
    (j = k ∧ ent' = { ent with settled := true }) ∨
    (j ≠ k ∧ entAt l j = some ent') := by
  by_cases hjk : j = k
  · subst hjk
    rw [entAt_setSettledAt_eq l j ent hk] at h
    exact Or.inl ⟨rfl, (Option.some.inj h).symm⟩
  · rw [entAt_setSettledAt_ne l k j hjk] at h
    exact Or.inr ⟨hjk, h⟩

theorem settleStep_none [Inhabited ε] (c : Nat) (plans : List (TaskSpec ε β))
    (σ : CState ε β) (k : Nat) (hent : entAt σ.promises k = none) :
    settleStep c plans σ k = σ := by
  simp [settleStep, hent]

theorem settleStep_settled [Inhabited ε] (c : Nat)
    (plans : List (TaskSpec ε β)) (σ : CState ε β) (k : Nat)
    (ent : CEntry ε β) (hent : entAt σ.promises k = some ent)
    (hs : ent.settled = true) : settleStep c plans σ k = σ := by
  simp [settleStep, hent, hs]

theorem settleStep_err [Inhabited ε] (c : Nat) (plans : List (TaskSpec ε β))
    (σ : CState ε β) (k : Nat) (ent : CEntry ε β) (e : ε)
    (hent : entAt σ.promises k = some ent) (hs : ent.settled = false)
    (hplan : ent.plan = .error e) :
    settleStep c plans σ k =
      (if ent.attached then
        { σ with promises := setSettledAt σ.promises k,
                 firstRej := orFirst σ.firstRej e,
                 firstFail := orFirst σ.firstFail e,
                 outer := rejectIfNone σ.outer e }
       else
        { σ with promises := setSettledAt σ.promises k,
                 firstRej := orFirst σ.firstRej e,
                 firstFail := orFirst σ.firstFail e }) := by
  simp only [settleStep, hent, hs, hplan]
  rfl

theorem settleStep_ok [Inhabited ε] (c : Nat) (plans : List (TaskSpec ε β))
    (σ : CState ε β) (k : Nat) (ent : CEntry ε β) (v : β)
    (hent : entAt σ.promises k = some ent) (hs : ent.settled = false)
    (hplan : ent.plan = .ok v) :
    settleStep c plans σ k =
      (if ent.attached then
        (if σ.running - 1 < c then
          burstOut (runLoop c plans (plans.length + 1) (σ.lastIndex + 1)
            { σ with promises := setSettledAt σ.promises k,
                     running := σ.running - 1 })
         else
          { σ with promises := setSettledAt σ.promises k,
                   running := σ.running - 1 })
       else { σ with promises := setSettledAt σ.promises k }) := by
  simp only [settleStep, hent, hs, hplan]
  rfl

/-- CPre survives marking the rejected settlement of entry `k` (both the
attached variant, which also rejects the outer promise, and the unattached
one). -/
theorem CPre_settle_err [Inhabited ε] (c : Nat) (plans : List (TaskSpec ε β))
    (σ : CState ε β) (k : Nat) (ent : CEntry ε β) (e : ε)
    (hp : CPre c plans σ) (hent : entAt σ.promises k = some ent)
    (hs : ent.settled = false) (hplan : ent.plan = .error e)
    (o' : Option (COuter ε))
    (ho' : o' = σ.outer ∨ o' = rejectIfNone σ.outer e)
    (houter : o' ≠ none) :
    CPre c plans
      { σ with promises := setSettledAt σ.promises k,
               firstRej := orFirst σ.firstRej e,
               firstFail := orFirst σ.firstFail e,
               outer := o' } := by
  have hklen : k < σ.promises.length := entAt_lt_length _ _ _ hent
  have hlenset : (setSettledAt σ.promises k).length = σ.promises.length :=
    setSettledAt_length σ.promises k
  refine ⟨?_, ?_, ?_, ?_, ?_, ?_, ?_, ?_, ?_, ?_, ?_, ?_, ?_, ?_, ?_, ?_⟩
  · show (setSettledAt σ.promises k).length ≤ plans.length
    rw [hlenset]
    exact hp.lenLe
  · intro j ent' hj
    have hj' : entAt (setSettledAt σ.promises k) j = some ent' := hj
    rcases entAt_setSettledAt_cases σ.promises k j ent ent' hent hj' with
      ⟨rfl, rfl⟩ | ⟨hne, hj''⟩
    · simpa using hp.entPlan j ent hent
    · exact hp.entPlan j ent' hj''
  · show σ.lastIndex + 1 = (setSettledAt σ.promises k).length ∨
      ((setSettledAt σ.promises k).length = 0 ∧ σ.lastIndex = 0)
    rw [hlenset]
    exact hp.lastIdx
  · show σ.running + doneCount (setSettledAt σ.promises k) =
      (setSettledAt σ.promises k).length
    rw [hlenset, doneCount_setSettledAt_other σ.promises k ent hent
      (Or.inr (by simp [hplan, planIsOk]))]
    exact hp.runEq
  · exact hp.runLe
  · exact hp.maxLe
  · intro h
    exact absurd h houter
  · intro e0 h
    show orFirst σ.firstFail e = some e0
    rcases ho' with rfl | rfl
    · rw [hp.rejFail e0 h]
      rfl
    · rcases rejectIfNone_eq_rejected σ.outer e e0 h with ⟨ho, rfl⟩ | ho
      · rw [hp.noneFail ho]
        rfl
      · rw [hp.rejFail e0 ho]
        rfl
  · intro h
    show (setSettledAt σ.promises k).length = plans.length
    rw [hlenset]
    rcases ho' with rfl | rfl
    · exact hp.adoptedAll h
    · exact hp.adoptedAll (rejectIfNone_eq_adopted σ.outer e h)
  · intro e0 h
    rcases orFirst_eq_some σ.firstFail e e0 h with ⟨ho, rfl⟩ | ho
    · refine ⟨k, lt_of_lt_of_le hklen hp.lenLe, Or.inr ?_⟩
      have := hp.entPlan k ent hent
      rw [hplan] at this
      exact this
    · exact hp.failProv e0 ho
  · intro e0 h
    rcases orFirst_eq_some σ.firstRej e e0 h with ⟨ho, rfl⟩ | ho
    · exact ⟨k, { ent with settled := true },
        entAt_setSettledAt_eq σ.promises k ent hent, by simpa using hplan⟩
    · obtain ⟨j, entj, hj, hpj⟩ := hp.rejProv e0 ho
      by_cases hne : j = k
      · subst hne
        rw [hent] at hj
        obtain rfl := Option.some.inj hj
        exact ⟨j, { ent with settled := true },
          entAt_setSettledAt_eq σ.promises j ent hent, by simpa using hpj⟩
      · exact ⟨j, entj, by
          show entAt (setSettledAt σ.promises k) j = some entj
          rw [entAt_setSettledAt_ne σ.promises k j hne]
          exact hj, hpj⟩
  · intro h
    exact absurd h (orFirst_ne_none σ.firstRej e)
  · intro x hx
    show x ≤ (setSettledAt σ.promises k).length
    rw [hlenset]
    exact hp.invLe x hx
  · exact hp.invSorted
  · intro hnt
    show σ.invocations = List.range (setSettledAt σ.promises k).length
    rw [hlenset]
    exact hp.invRange hnt
  · intro h
    exact absurd h (orFirst_ne_none σ.firstFail e)

/-- CPre survives the fulfilled settlement of an attached entry `k`
(`running--` in its `.then` callback). -/
theorem CPre_settle_ok_att [Inhabited ε] (c : Nat)
    (plans : List (TaskSpec ε β)) (σ : CState ε β) (k : Nat)
    (ent : CEntry ε β) (v : β) (hp : CPre c plans σ)
    (hent : entAt σ.promises k = some ent) (hs : ent.settled = false)
    (hplan : ent.plan = .ok v) (hatt : ent.attached = true) :
    CPre c plans { σ with promises := setSettledAt σ.promises k,
                          running := σ.running - 1 } := by
  have hklen : k < σ.promises.length := entAt_lt_length _ _ _ hent
  have hlenset : (setSettledAt σ.promises k).length = σ.promises.length :=
    setSettledAt_length σ.promises k
  have hrpos : 1 ≤ σ.running := by
    have h1 := doneCount_lt_of_uncounted σ.promises k ent hent
      (by simp [hs])
    have h2 := hp.runEq
    omega
  refine ⟨?_, ?_, ?_, ?_, ?_, ?_, ?_, ?_, ?_, ?_, ?_, ?_, ?_, ?_, ?_, ?_⟩
  · show (setSettledAt σ.promises k).length ≤ plans.length
    rw [hlenset]
    exact hp.lenLe
  · intro j ent' hj
    have hj' : entAt (setSettledAt σ.promises k) j = some ent' := hj
    rcases entAt_setSettledAt_cases σ.promises k j ent ent' hent hj' with
      ⟨rfl, rfl⟩ | ⟨hne, hj''⟩
    · simpa using hp.entPlan j ent hent
    · exact hp.entPlan j ent' hj''
  · show σ.lastIndex + 1 = (setSettledAt σ.promises k).length ∨
      ((setSettledAt σ.promises k).length = 0 ∧ σ.lastIndex = 0)
    rw [hlenset]
    exact hp.lastIdx
  · show σ.running - 1 + doneCount (setSettledAt σ.promises k) =
      (setSettledAt σ.promises k).length
    rw [hlenset, doneCount_setSettledAt_ok σ.promises k ent hent hatt hs
      (by simp [hplan, planIsOk])]
    have := hp.runEq
    omega
  · exact le_trans (Nat.sub_le _ _) hp.runLe
  · exact hp.maxLe
  · exact hp.noneFail
  · exact hp.rejFail
  · intro h
    show (setSettledAt σ.promises k).length = plans.length
    rw [hlenset]
    exact hp.adoptedAll h
  · exact hp.failProv
  · intro e0 h
    obtain ⟨j, entj, hj, hpj⟩ := hp.rejProv e0 h
    by_cases hne : j = k
    · subst hne
      rw [hent] at hj
      obtain rfl := Option.some.inj hj
      rw [hplan] at hpj
      exact absurd hpj (by simp)
    · exact ⟨j, entj, by
        show entAt (setSettledAt σ.promises k) j = some entj
        rw [entAt_setSettledAt_ne σ.promises k j hne]
        exact hj, hpj⟩
  · intro h j ent' hj hsettled
    have hj' : entAt (setSettledAt σ.promises k) j = some ent' := hj
    rcases entAt_setSettledAt_cases σ.promises k j ent ent' hent hj' with
      ⟨rfl, rfl⟩ | ⟨hne, hj''⟩
    · simp [hplan, planIsOk]
    · exact hp.rejNone h j ent' hj'' hsettled
  · intro x hx
    show x ≤ (setSettledAt σ.promises k).length
    rw [hlenset]
    exact hp.invLe x hx
  · exact hp.invSorted
  · intro hnt
    show σ.invocations = List.range (setSettledAt σ.promises k).length
    rw [hlenset]
    exact hp.invRange hnt
  · exact hp.failNone

/-- CPre survives the settlement of an unattached fulfilled entry (no
handlers, nothing runs). -/
theorem CPre_settle_ok_unatt [Inhabited ε] (c : Nat)
    (plans : List (TaskSpec ε β)) (σ : CState ε β) (k : Nat)
    (ent : CEntry ε β) (v : β) (hp : CPre c plans σ)
    (hent : entAt σ.promises k = some ent) (hs : ent.settled = false)
    (hplan : ent.plan = .ok v) (hatt : ent.attached = false) :
    CPre c plans { σ with promises := setSettledAt σ.promises k } := by
  have hlenset : (setSettledAt σ.promises k).length = σ.promises.length :=
    setSettledAt_length σ.promises k
  refine ⟨?_, ?_, ?_, ?_, ?_, ?_, ?_, ?_, ?_, ?_, ?_, ?_, ?_, ?_, ?_, ?_⟩
  · show (setSettledAt σ.promises k).length ≤ plans.length
    rw [hlenset]
    exact hp.lenLe
  · intro j ent' hj
    have hj' : entAt (setSettledAt σ.promises k) j = some ent' := hj
    rcases entAt_setSettledAt_cases σ.promises k j ent ent' hent hj' with
      ⟨rfl, rfl⟩ | ⟨hne, hj''⟩
    · simpa using hp.entPlan j ent hent
    · exact hp.entPlan j ent' hj''
  · show σ.lastIndex + 1 = (setSettledAt σ.promises k).length ∨
      ((setSettledAt σ.promises k).length = 0 ∧ σ.lastIndex = 0)
    rw [hlenset]
    exact hp.lastIdx
  · show σ.running + doneCount (setSettledAt σ.promises k) =
      (setSettledAt σ.promises k).length
    rw [hlenset, doneCount_setSettledAt_other σ.promises k ent hent
      (Or.inl hatt)]
    exact hp.runEq
  · exact hp.runLe
  · exact hp.maxLe
  · exact hp.noneFail
  · exact hp.rejFail
  · intro h
    show (setSettledAt σ.promises k).length = plans.length
    rw [hlenset]
    exact hp.adoptedAll h
  · exact hp.failProv
  · intro e0 h
    obtain ⟨j, entj, hj, hpj⟩ := hp.rejProv e0 h
    by_cases hne : j = k
    · subst hne
      rw [hent] at hj
      obtain rfl := Option.some.inj hj
      rw [hplan] at hpj
      exact absurd hpj (by simp)
    · exact ⟨j, entj, by
        show entAt (setSettledAt σ.promises k) j = some entj
        rw [entAt_setSettledAt_ne σ.promises k j hne]
        exact hj, hpj⟩
  · intro h j ent' hj hsettled
    have hj' : entAt (setSettledAt σ.promises k) j = some ent' := hj
    rcases entAt_setSettledAt_cases σ.promises k j ent ent' hent hj' with
      ⟨rfl, rfl⟩ | ⟨hne, hj''⟩
    · simp [hplan, planIsOk]
    · exact hp.rejNone h j ent' hj'' hsettled
  · intro x hx
    show x ≤ (setSettledAt σ.promises k).length
    rw [hlenset]
    exact hp.invLe x hx
  · exact hp.invSorted
  · intro hnt
    show σ.invocations = List.range (setSettledAt σ.promises k).length
    rw [hlenset]
    exact hp.invRange hnt
  · exact hp.failNone

/-- The event-boundary invariants survive any settlement event. -/
theorem settleStep_inv [Inhabited ε] (c : Nat) (plans : List (TaskSpec ε β))
    (σ : CState ε β) (k : Nat) (hc : 1 ≤ c) (hp : CInv c plans σ) :
    CInv c plans (settleStep c plans σ k) := by
  cases hent : entAt σ.promises k with
  | none =>
    rw [settleStep_none c plans σ k hent]
    exact hp
  | some ent =>
    cases hsett : ent.settled with
    | true =>
      rw [settleStep_settled c plans σ k ent hent hsett]
      exact hp
    | false =>
      cases hplan : ent.plan with
      | error e =>
        rw [settleStep_err c plans σ k ent e hent hsett hplan]
        cases hatt : ent.attached with
        | true =>
          rw [if_pos rfl]
          refine ⟨CPre_settle_err c plans σ k ent e hp.toCPre hent hsett hplan
            (rejectIfNone σ.outer e) (Or.inr rfl)
            (rejectIfNone_ne_none σ.outer e), ?_, ?_⟩
          · intro h
            exact absurd h (rejectIfNone_ne_none σ.outer e)
          · intro h
            exact absurd h (rejectIfNone_ne_none σ.outer e)
        | false =>
          rw [if_neg (by simp)]
          have hno : σ.outer ≠ none := fun h => by
            simpa [hatt] using hp.noneAtt h k ent hent
          refine ⟨CPre_settle_err c plans σ k ent e hp.toCPre hent hsett hplan
            σ.outer (Or.inl rfl) hno, ?_, ?_⟩
          · intro h
            exact absurd h hno
          · intro h
            exact absurd h hno
      | ok v =>
        rw [settleStep_ok c plans σ k ent v hent hsett hplan]
        cases hatt : ent.attached with
        | false =>
          rw [if_neg (by simp)]
          have hno : σ.outer ≠ none := fun h => by
            simpa [hatt] using hp.noneAtt h k ent hent
          refine ⟨CPre_settle_ok_unatt c plans σ k ent v hp.toCPre hent hsett
            hplan hatt, ?_, ?_⟩
          · intro h
            exact absurd h hno
          · intro h
            exact absurd h hno
        | true =>
          rw [if_pos rfl]
          have hp1 : CPre c plans
              { σ with promises := setSettledAt σ.promises k,
                       running := σ.running - 1 } :=
            CPre_settle_ok_att c plans σ k ent v hp.toCPre hent hsett hplan hatt
          have hklen : k < σ.promises.length := entAt_lt_length _ _ _ hent
          have hlast : σ.lastIndex + 1 = σ.promises.length := by
            rcases hp.lastIdx with h | ⟨h0, _⟩
            · exact h
            · omega
          by_cases hlt2 : σ.running - 1 < c
          · rw [if_pos hlt2]
            have hpost := runLoop_spec c plans hc (plans.length + 1)
              (σ.lastIndex + 1)
              { σ with promises := setSettledAt σ.promises k,
                       running := σ.running - 1 }
              (by show σ.lastIndex + 1 = (setSettledAt σ.promises k).length
                  rw [setSettledAt_length]
                  exact hlast)
              hlt2 (by omega) hp1
            refine ⟨hpost.pre, ?_, ?_⟩
            · intro h j ent' hj
              have hσnone : σ.outer = none := hpost.outerMono h
              rcases Nat.lt_or_ge j (setSettledAt σ.promises k).length with
                hcmp | hcmp
              · have hj2 := hpost.lowPreserve j hcmp
                rw [hj2] at hj
                have hj' : entAt (setSettledAt σ.promises k) j = some ent' := hj
                rcases entAt_setSettledAt_cases σ.promises k j ent ent' hent
                  hj' with ⟨rfl, rfl⟩ | ⟨hne, hj''⟩
                · simpa using hatt
                · exact hp.noneAtt hσnone j ent' hj''
              · exact (hpost.highNew j ent' hcmp hj).2 h
            · intro h
              rw [hpost.liveEnd h]
              exact hc
          · rw [if_neg hlt2]
            have hge : c ≤ σ.running - 1 := Nat.le_of_not_lt hlt2
            refine ⟨hp1, ?_, ?_⟩
            · intro h j ent' hj
              have hj' : entAt (setSettledAt σ.promises k) j = some ent' := hj
              rcases entAt_setSettledAt_cases σ.promises k j ent ent' hent
                hj' with ⟨rfl, rfl⟩ | ⟨hne, hj''⟩
              · simpa using hatt
              · exact hp.noneAtt h j ent' hj''
            · intro h
              show 1 ≤ σ.running - 1
              omega

/-- The executor (`run(0)` plus the catch of its synchronous throw)
establishes the event-boundary invariants. -/
theorem initRun_inv [Inhabited ε] (c : Nat) (plans : List (TaskSpec ε β))
    (hc : 1 ≤ c) : CInv c plans (initRun c plans) := by
  have hp0 : CPre c plans (⟨[], 0, 0, none, none, none, 0, []⟩ : CState ε β) := by
    refine ⟨?_, ?_, ?_, ?_, ?_, ?_, ?_, ?_, ?_, ?_, ?_, ?_, ?_, ?_, ?_, ?_⟩
    · simp
    · intro j ent hj
      have hj' : entAt ([] : List (CEntry ε β)) j = some ent := hj
      cases j <;> exact absurd hj' (by simp [entAt])
    · exact Or.inr ⟨rfl, rfl⟩
    · rfl
    · exact Nat.le_refl 0
    · exact Nat.zero_le c
    · intro h; rfl
    · intro e h; exact absurd h (by simp)
    · intro h; exact absurd h (by simp)
    · intro e h; exact absurd h (by simp)
    · intro e h; exact absurd h (by simp)
    · intro h j ent hj hs
      have hj' : entAt ([] : List (CEntry ε β)) j = some ent := hj
      cases j <;> exact absurd hj' (by simp [entAt])
    · intro x hx; exact absurd hx (by simp)
    · exact List.Pairwise.nil
    · intro hnt; rfl
    · intro h; rfl
  have hpost := runLoop_spec c plans hc (plans.length + 1) 0
    (⟨[], 0, 0, none, none, none, 0, []⟩ : CState ε β) rfl hc (by omega) hp0
  refine ⟨hpost.pre, ?_, ?_⟩
  · intro h j ent hj
    exact (hpost.highNew j ent (Nat.zero_le j) hj).2 h
  · intro h
    have h' : (burstOut (runLoop c plans (plans.length + 1) 0
        (⟨[], 0, 0, none, none, none, 0, []⟩ : CState ε β))).outer = none := h
    show 1 ≤ (burstOut (runLoop c plans (plans.length + 1) 0
        (⟨[], 0, 0, none, none, none, 0, []⟩ : CState ε β))).running
    rw [hpost.liveEnd h']
    exact hc

/-- The event-boundary invariants hold after the start burst and any
schedule of settlement events. -/
theorem concurrentExec_inv [Inhabited ε] (c : Nat)
    (plans : List (TaskSpec ε β)) (sched : List Nat) (hc : 1 ≤ c) :
    CInv c plans (concurrentExec c plans sched) := by
  suffices h : ∀ (σ : CState ε β), CInv c plans σ →
      CInv c plans (sched.foldl (settleStep c plans) σ) by
    exact h (initRun c plans) (initRun_inv c plans hc)
  induction sched with
  | nil => intro σ h; exact h
  | cons x rest ih =>
    intro σ h
    exact ih (settleStep c plans σ x) (settleStep_inv c plans σ x hc h)

/-! ### From the invariants to the claims -/

theorem entAt_exists_of_mem : ∀ (l : List γ) (x : γ), x ∈ l →
    ∃ j, entAt l j = some x := by
  intro l
  induction l with
  | nil => intro x h; simp at h
  | cons y rest ih =>
    intro x h
    rcases List.mem_cons.1 h with rfl | h
    · exact ⟨0, rfl⟩
    · obtain ⟨j, hj⟩ := ih x h
      exact ⟨j + 1, hj⟩

theorem doneCount_full : ∀ (l : List (CEntry ε β)),
    (∀ ent ∈ l, ent.attached = true ∧ ent.settled = true ∧
      planIsOk ent.plan = true) → doneCount l = l.length := by
  intro l
  induction l with
  | nil => intro h; rfl
  | cons x rest ih =>
    intro h
    obtain ⟨ha, hs, hok⟩ := h x (by simp)
    simp only [doneCount, ha, hs, hok, List.length_cons]
    rw [ih (fun ent hent => h ent (List.mem_cons_of_mem x hent))]
    norm_num
    omega

theorem entAt_map (f : γ → δ) : ∀ (l : List γ) (j : Nat),
    entAt (l.map f) j = (entAt l j).map f := by
  intro l
  induction l with
  | nil => intro j; cases j <;> rfl
  | cons x rest ih =>
    intro j
    cases j with
    | zero => rfl
    | succ j => exact ih j

theorem entAt_ext : ∀ (l l' : List γ),
    (∀ j, entAt l j = entAt l' j) → l = l' := by
  intro l
  induction l with
  | nil =>
    intro l' h
    cases l' with
    | nil => rfl
    | cons y rest => exact absurd (h 0).symm (by simp [entAt])
  | cons x rest ih =>
    intro l' h
    cases l' with
    | nil => exact absurd (h 0) (by simp [entAt])
    | cons y rest' =>
      have h0 : x = y := Option.some.inj (h 0)
      rw [h0, ih rest' (fun j => h (j + 1))]

/-- When every task fulfils and the schedule settles every started promise,
the outer promise has adopted a fully fulfilled `Promise.all`: every task
was started, and no rejection was recorded. -/
theorem exec_allok [Inhabited ε] (c : Nat) (plans : List (TaskSpec ε β))
    (sched : List Nat) (hc : 1 ≤ c)
    (hok : ∀ t ∈ plans, ∃ v, t = TaskSpec.promise (Except.ok v))
    (hall : allSettledB (concurrentExec c plans sched) = true) :
    (concurrentExec c plans sched).outer = some .adopted ∧
    (concurrentExec c plans sched).promises.length = plans.length ∧
    (concurrentExec c plans sched).firstRej = none := by
  set σ := concurrentExec c plans sched with hσ
  have hinv := concurrentExec_inv c plans sched hc
  have hsettled : ∀ ent ∈ σ.promises, ent.settled = true := by
    intro ent hent
    exact (List.all_eq_true.1 hall) ent hent
  have hentok : ∀ j ent, entAt σ.promises j = some ent →
      ∃ v, ent.plan = Except.ok v := by
    intro j ent hj
    have htap := hinv.entPlan j ent hj
    have hjlt : j < plans.length :=
      lt_of_lt_of_le (entAt_lt_length _ _ _ hj) hinv.lenLe
    obtain ⟨t, hts⟩ := entAt_of_lt plans j hjlt
    obtain ⟨v, rfl⟩ := hok t (entAt_mem _ _ _ hts)
    rw [show taskAt plans j = TaskSpec.promise (Except.ok v) by
      simp [taskAt, hts]] at htap
    injection htap with hpe
    exact ⟨v, hpe.symm⟩
  have hrejnone : σ.firstRej = none := by
    cases hfr : σ.firstRej with
    | none => rfl
    | some e =>
      obtain ⟨j, ent, hj, hplan⟩ := hinv.rejProv e hfr
      obtain ⟨v, hv⟩ := hentok j ent hj
      rw [hv] at hplan
      exact absurd hplan (by simp)
  have houter : σ.outer = some .adopted := by
    cases ho : σ.outer with
    | none =>
      exfalso
      have hatt := hinv.noneAtt ho
      have hdone : doneCount σ.promises = σ.promises.length := by
        refine doneCount_full σ.promises ?_
        intro ent hent
        obtain ⟨j, hj⟩ := entAt_exists_of_mem σ.promises ent hent
        obtain ⟨v, hv⟩ := hentok j ent hj
        exact ⟨hatt j ent hj, hsettled ent hent, by simp [hv, planIsOk]⟩
      have h1 := hinv.runEq
      have h2 := hinv.live ho
      rw [← hσ] at h1 h2
      omega
    | some o =>
      cases o with
      | adopted => rfl
      | rejected e =>
        exfalso
        have hff := hinv.rejFail e ho
        obtain ⟨k, hk, hcase⟩ := hinv.failProv e hff
        obtain ⟨t, hts⟩ := entAt_of_lt plans k hk
        obtain ⟨v, rfl⟩ := hok t (entAt_mem _ _ _ hts)
        have htk : taskAt plans k = TaskSpec.promise (Except.ok v) := by
          simp [taskAt, hts]
        rcases hcase with hcase | hcase <;> rw [htk] at hcase <;>
          simp at hcase
  exact ⟨houter, hinv.adoptedAll houter, hrejnone⟩

theorem finalResult_rejected [Inhabited β] (σ : CState ε β) (e : ε)
    (ho : σ.outer = some (.rejected e)) :
    finalResult σ = some (Except.error e) := by
  simp [finalResult, ho]

theorem finalResult_adopted_rej [Inhabited β] (σ : CState ε β) (e : ε)
    (ho : σ.outer = some .adopted) (hr : σ.firstRej = some e) :
    finalResult σ = some (Except.error e) := by
  simp [finalResult, ho, hr]

theorem finalResult_adopted_ok [Inhabited β] (σ : CState ε β)
    (ho : σ.outer = some .adopted) (hr : σ.firstRej = none)
    (ha : allSettledB σ = true) :
    finalResult σ =
      some (Except.ok (σ.promises.map (fun ent => planVal ent.plan))) := by
  simp [finalResult, ho, hr, ha]

/-! ## Claims C1, C4, C5, C10 -/

/-- C1: for every concurrency limit `c ≥ 1`, every task list and every
settlement schedule that settles all started promises, the promise returned
by `concurrentN(c)(...fns)(...args)` resolves to the array whose `i`-th
element is the fulfilled value of `fns[i](...args)` — original index order,
independent of the completion order `sched`.  Every task is invoked with the
identical tuple `args` (each invocation in the model is literally
`f args`). -/
theorem concurrentN_order_preserved (α ε β : Type) [Inhabited ε] [Inhabited β]
    (c : Nat) (fns : List (List α → TaskSpec ε β)) (args : List α)
    (sched : List Nat) (hc : 1 ≤ c)
    (hok : ∀ f ∈ fns, ∃ v, f args = TaskSpec.promise (Except.ok v))
    (hall : allSettledB (concurrentRun c fns args sched) = true) :
    finalResult (concurrentRun c fns args sched) =
      some (Except.ok (fns.map (fun f => okValOf (f args)))) := by
  have hok' : ∀ t ∈ plansOf fns args, ∃ v,
      t = TaskSpec.promise (Except.ok v) := by
    intro t ht
    simp only [plansOf, List.mem_map] at ht
    obtain ⟨f, hf, rfl⟩ := ht
    exact hok f hf
  obtain ⟨hadopt, hlen, hrej⟩ :=
    exec_allok c (plansOf fns args) sched hc hok' hall
  have hinv := concurrentExec_inv c (plansOf fns args) sched hc
  show finalResult (concurrentExec c (plansOf fns args) sched) = _
  rw [finalResult_adopted_ok _ hadopt hrej hall]
  have hmap : (concurrentExec c (plansOf fns args) sched).promises.map
      (fun ent => planVal ent.plan) = fns.map (fun f => okValOf (f args)) := by
    have hrhs : fns.map (fun f => okValOf (f args)) =
        (plansOf fns args).map okValOf := by
      simp [plansOf, List.map_map, Function.comp]
    rw [hrhs]
    refine entAt_ext _ _ ?_
    intro j
    rw [entAt_map, entAt_map]
    rcases Nat.lt_or_ge j (plansOf fns args).length with hlt | hge
    · obtain ⟨ent, hent⟩ := entAt_of_lt
        (concurrentExec c (plansOf fns args) sched).promises j (by omega)
      obtain ⟨t, hts⟩ := entAt_of_lt (plansOf fns args) j hlt
      obtain ⟨v, rfl⟩ := hok' t (entAt_mem _ _ _ hts)
      have htap := hinv.entPlan j ent hent
      rw [show taskAt (plansOf fns args) j =
          TaskSpec.promise (Except.ok v) by simp [taskAt, hts]] at htap
      injection htap with hpe
      rw [hent, hts]
      show some (planVal ent.plan) =
        some (okValOf (TaskSpec.promise (Except.ok v)))
      rw [← hpe]
      rfl
    · rw [entAt_none_of_le _ j (by omega), entAt_none_of_le _ j hge]
      rfl
  rw [hmap]

/-- C4: with exactly one failing task — rejecting asynchronously with `e` or
throwing `e` synchronously when invoked — a completed run's overall promise
rejects with that same error `e`, unmodified. -/
theorem concurrentN_rejects_task_error (α ε β : Type) [Inhabited ε]
    [Inhabited β] (c : Nat) (fns : List (List α → TaskSpec ε β))
    (args : List α) (sched : List Nat) (hc : 1 ≤ c) (k : Nat)
    (fk : List α → TaskSpec ε β) (e : ε) (hk : entAt fns k = some fk)
    (hfail : fk args = TaskSpec.throws e ∨
      fk args = TaskSpec.promise (Except.error e))
    (hothers : ∀ j f', ¬ j = k → entAt fns j = some f' →
      ∃ v, f' args = TaskSpec.promise (Except.ok v))
    (hall : allSettledB (concurrentRun c fns args sched) = true) :
    finalResult (concurrentRun c fns args sched) =
      some (Except.error e) := by
  have hinv := concurrentExec_inv c (plansOf fns args) sched hc
  have hplansk : entAt (plansOf fns args) k = some (fk args) := by
    show entAt (fns.map (fun f => f args)) k = _
    rw [entAt_map, hk]
    rfl
  have htaskk : taskAt (plansOf fns args) k = fk args := by
    simp [taskAt, hplansk]
  have hklt : k < (plansOf fns args).length := entAt_lt_length _ _ _ hplansk
  have hplansother : ∀ j, ¬ j = k → j < (plansOf fns args).length →
      ∃ v, taskAt (plansOf fns args) j = TaskSpec.promise (Except.ok v) := by
    intro j hne hjlt
    have hjlt' : j < fns.length := by
      simpa [plansOf] using hjlt
    obtain ⟨f', hf'⟩ := entAt_of_lt fns j hjlt'
    obtain ⟨v, hv⟩ := hothers j f' hne hf'
    refine ⟨v, ?_⟩
    have : entAt (plansOf fns args) j = some (f' args) := by
      show entAt (fns.map (fun f => f args)) j = _
      rw [entAt_map, hf']
      rfl
    simp [taskAt, this, hv]
  show finalResult (concurrentExec c (plansOf fns args) sched) = _
  set σ := concurrentExec c (plansOf fns args) sched with hσ
  cases ho : σ.outer with
  | none =>
    exfalso
    have hff : σ.firstFail = none := hinv.noneFail ho
    have hfr : σ.firstRej = none := hinv.failNone hff
    have hatt := hinv.noneAtt ho
    have hdone : doneCount σ.promises = σ.promises.length := by
      refine doneCount_full σ.promises ?_
      intro ent hent
      obtain ⟨j, hj⟩ := entAt_exists_of_mem σ.promises ent hent
      have hsettled : ent.settled = true := (List.all_eq_true.1 hall) ent hent
      exact ⟨hatt j ent hj, hsettled, hinv.rejNone hfr j ent hj hsettled⟩
    have h1 := hinv.runEq
    have h2 := hinv.live ho
    omega
  | some o =>
    cases o with
    | rejected e' =>
      have hff := hinv.rejFail e' ho
      obtain ⟨j, hjlt, hcase⟩ := hinv.failProv e' hff
      have hek : e' = e := by
        by_cases hne : j = k
        · subst hne
          rw [htaskk] at hcase
          rcases hfail with hf | hf
          · rw [hf] at hcase
            rcases hcase with hcase | hcase
            · injection hcase with h1
              exact h1.symm
            · exact absurd hcase (by simp)
          · rw [hf] at hcase
            rcases hcase with hcase | hcase
            · exact absurd hcase (by simp)
            · injection hcase with h1
              injection h1 with h2
              exact h2.symm
        · obtain ⟨v, hv⟩ := hplansother j hne hjlt
          rcases hcase with hcase | hcase
          · rw [hv] at hcase
            exact absurd hcase (by simp)
          · rw [hv] at hcase
            exact absurd hcase (by simp)
      rw [hek] at ho
      exact finalResult_rejected σ e ho
    | adopted =>
      cases hfr : σ.firstRej with
      | some e' =>
        obtain ⟨j, ent, hj, hplan⟩ := hinv.rejProv e' hfr
        have htap := hinv.entPlan j ent hj
        rw [hplan] at htap
        have hek : e' = e := by
          by_cases hne : j = k
          · subst hne
            rw [htaskk] at htap
            rcases hfail with hf | hf
            · rw [hf] at htap
              exact absurd htap (by simp)
            · rw [hf] at htap
              injection htap with h1
              injection h1 with h2
              exact h2.symm
          · have hjlt2 : j < (plansOf fns args).length :=
              lt_of_lt_of_le (entAt_lt_length _ _ _ hj) hinv.lenLe
            obtain ⟨v, hv⟩ := hplansother j hne hjlt2
            rw [hv] at htap
            injection htap with h1
            exact absurd h1.symm (by simp)
        rw [hek] at hfr
        exact finalResult_adopted_rej σ e ho hfr
      | none =>
        exfalso
        have hlen : σ.promises.length = (plansOf fns args).length :=
          hinv.adoptedAll ho
        obtain ⟨entk, hentk⟩ := entAt_of_lt σ.promises k (by omega)
        have htap := hinv.entPlan k entk hentk
        rw [htaskk] at htap
        rcases hfail with hf | hf <;> rw [hf] at htap
        · exact absurd htap (by simp)
        · injection htap with h1
          have hsettled : entk.settled = true :=
            (List.all_eq_true.1 hall) entk (entAt_mem _ _ _ hentk)
          have := hinv.rejNone hfr k entk hentk hsettled
          rw [← h1] at this
          simp [planIsOk] at this

/-- C5: in every run of `concurrentN(c)` with `c ≥ 1` (the contract of
§4.3), the number of in-flight tasks satisfies `0 ≤ running ≤ c` at every
point of the execution: `maxRunning` is the ghost supremum of `running`
over every increment, taken over the initial burst and every prefix of the
settlement schedule, and it never exceeds the limit. -/
theorem concurrentN_running_bounded (α ε β : Type) [Inhabited ε] [Inhabited β]
    (c : Nat) (fns : List (List α → TaskSpec ε β)) (args : List α)
    (sched : List Nat) (hc : 1 ≤ c) :
    (concurrentRun c fns args sched).running ≤
        (concurrentRun c fns args sched).maxRunning ∧
    (concurrentRun c fns args sched).maxRunning ≤ c := by
  have hinv := concurrentExec_inv c (plansOf fns args) sched hc
  exact ⟨hinv.runLe, hinv.maxLe⟩

/-- C10 (amended): task invocation indices form a nondecreasing sequence
(task `i+1` is never started before task `i`); when no task throws
synchronously, the invocation list is exactly `range` of the number of
started tasks, so each task is started at most once; and when moreover
every task fulfils and the schedule settles everything, every task is
invoked exactly once.  (A synchronously throwing task can be invoked more
than once — see the counterexample.) -/
theorem concurrentN_start_order (α ε β : Type) [Inhabited ε] [Inhabited β]
    (c : Nat) (fns : List (List α → TaskSpec ε β)) (args : List α)
    (sched : List Nat) (hc : 1 ≤ c) :
    (concurrentRun c fns args sched).invocations.Pairwise (· ≤ ·) ∧
    ((∀ f ∈ fns, ∃ o, f args = TaskSpec.promise o) →
      (concurrentRun c fns args sched).invocations =
        List.range (concurrentRun c fns args sched).promises.length) ∧
    ((∀ f ∈ fns, ∃ v, f args = TaskSpec.promise (Except.ok v)) →
      allSettledB (concurrentRun c fns args sched) = true →
      (concurrentRun c fns args sched).invocations =
        List.range fns.length) := by
  have hinv := concurrentExec_inv c (plansOf fns args) sched hc
  have hnt : (∀ f ∈ fns, ∃ o, f args = TaskSpec.promise o) →
      noThrowPlans (plansOf fns args) := by
    intro h t ht
    simp only [plansOf, List.mem_map] at ht
    obtain ⟨f, hf, rfl⟩ := ht
    exact h f hf
  refine ⟨hinv.invSorted, fun h => hinv.invRange (hnt h), ?_⟩
  intro hok hall
  have hok' : ∀ t ∈ plansOf fns args, ∃ v,
      t = TaskSpec.promise (Except.ok v) := by
    intro t ht
    simp only [plansOf, List.mem_map] at ht
    obtain ⟨f, hf, rfl⟩ := ht
    exact hok f hf
  obtain ⟨hadopt, hlen, hrej⟩ :=
    exec_allok c (plansOf fns args) sched hc hok' hall
  have hr := hinv.invRange (hnt (fun f hf => by
    obtain ⟨v, hv⟩ := hok f hf
    exact ⟨Except.ok v, hv⟩))
  show (concurrentExec c (plansOf fns args) sched).invocations =
    List.range fns.length
  rw [hr, hlen]
  simp [plansOf]

/-- Witness for C1: limit 2, three tasks, a schedule settling task 1 before
task 0; the result array is still in index order. -/
theorem concurrentN_order_preserved_witness :
    finalResult (concurrentRun 2 wOkFns [] [1, 0, 2]) =
      some (Except.ok [1, 2, 3]) :=
  concurrentN_order_preserved Nat Nat Nat 2 wOkFns [] [1, 0, 2]
    (by omega)
    (by
      intro f hf
      simp only [wOkFns, List.mem_cons, List.not_mem_nil, or_false] at hf
      rcases hf with rfl | rfl | rfl
      · exact ⟨1, rfl⟩
      · exact ⟨2, rfl⟩
      · exact ⟨3, rfl⟩)
    rfl

/-- Witness for C4: the second task rejects with error `7`; the completed
run rejects with exactly that error. -/
theorem concurrentN_rejects_task_error_witness :
    finalResult (concurrentRun 2 wErrFns [] [1, 0, 2]) =
      some (Except.error 7) :=
  concurrentN_rejects_task_error Nat Nat Nat 2 wErrFns [] [1, 0, 2]
    (by omega) 1 (fun _ => .promise (.error 7)) 7 rfl (Or.inr rfl)
    (by
      intro j f' hne hj
      match j, hne, hj with
      | 0, _, hj =>
        obtain rfl := Option.some.inj hj
        exact ⟨10, rfl⟩
      | 1, hne, _ => exact absurd rfl hne
      | 2, _, hj =>
        obtain rfl := Option.some.inj hj
        exact ⟨20, rfl⟩
      | n + 3, _, hj => exact Option.noConfusion hj)
    rfl

/-- Witness for C5 at limit 2 with three tasks. -/
theorem concurrentN_running_bounded_witness :
    (concurrentRun 2 wOkFns [] [1, 0, 2]).running ≤
        (concurrentRun 2 wOkFns [] [1, 0, 2]).maxRunning ∧
    (concurrentRun 2 wOkFns [] [1, 0, 2]).maxRunning ≤ 2 :=
  concurrentN_running_bounded Nat Nat Nat 2 wOkFns [] [1, 0, 2] (by omega)

/-- C10 counterexample: limit 2, tasks `[fulfils, fulfils, throws]`,
schedule settling task 1 first and then task 0.  Both settlements call
`next()`, and since the throwing task never pushes a promise, `lastIndex`
stays 1 and `run(2)` invokes task 2 *twice*: the invocation log is
`[0, 1, 2, 2]`, so "each task is started at most once" is false. -/
theorem concurrentN_double_start_cex :
    (concurrentRun 2 wThrowFns [] [1, 0]).invocations = [0, 1, 2, 2] ∧
    ¬ (concurrentRun 2 wThrowFns [] [1, 0]).invocations.Nodup := by
  constructor
  · rfl
  · rw [show (concurrentRun 2 wThrowFns [] [1, 0]).invocations = [0, 1, 2, 2]
      from rfl]
    decide

/-- Witness for the amended C10: with no synchronous throws every task is
invoked exactly once, in ascending order. -/
theorem concurrentN_start_order_witness :
    (concurrentRun 2 wOkFns [] [1, 0, 2]).invocations = List.range 3 :=
  (concurrentN_start_order Nat Nat Nat 2 wOkFns [] [1, 0, 2] (by omega)).2.2
    (by
      intro f hf
      simp only [wOkFns, List.mem_cons, List.not_mem_nil, or_false] at hf
      rcases hf with rfl | rfl | rfl
      · exact ⟨1, rfl⟩
      · exact ⟨2, rfl⟩
      · exact ⟨3, rfl⟩)
    rfl
